import Mathlib

/-!
# The diagonal (0,m,2)-net generator `GenDiag0m2` (`gendiag0m2.h`)

A shallow embedding of the class `GenDiag0m2` and theorems about it.

A C++ `unsigned int` is a natural number below `2 ^ 32`; every operation that
can leave that range is reduced modulo `2 ^ 32` explicitly; the `int` expressions
`1 << s`, `-(1 << s)` and `~-(1 << s)` are the two's complement words.  Three things are
undefined in C++ and are supplied by a `Target`: the value of a left shift and
of a right shift whose count is `32` or more, and the word found when the
offset table is read beyond its end.  Theorems that hold whatever the target
does are stated for every target; evaluations are stated for the two targets
`maskCount` (the count is taken modulo `32`) and `zeroFill` (all bits are
shifted out).

`get` and `getShiftedTiling` are the methods as they run for an index below `n`, where
every read of the table is inside it, in a build that keeps `assert`.  What a call
comes to in either build and for any index is `getShiftedTilingRun`: it separates the
aborted assertion, the read outside the table and the returned point.
-/

/-- What the machine yields where C++ leaves the result of an operation undefined. -/
structure Target where
  /-- Value of `a << s` for a count `s` of `32` or more. -/
  shlBig : Nat → Nat → Nat
  /-- Value of `a >> s` for a count `s` of `32` or more. -/
  shrBig : Nat → Nat → Nat
  /-- Word found at `d[k]` when `k` is not below the length of the table. -/
  oob : Nat → Nat

/-- A machine that uses the low five bits of a shift count. -/
def maskCount : Target where
  shlBig a s := a <<< (s % 32)
  shrBig a s := a >>> (s % 32)
  oob _ := 0

/-- A machine on which a shift by `32` or more leaves no bit. -/
def zeroFill : Target where
  shlBig _ _ := 0
  shrBig _ _ := 0
  oob _ := 0

/-- Addition of two `unsigned int`. -/
def add32 (a b : Nat) : Nat := (a + b) % 2 ^ 32

/-- Subtraction of two `unsigned int` (both below `2 ^ 32`). -/
def sub32 (a b : Nat) : Nat := (a + 2 ^ 32 - b) % 2 ^ 32

/-- Multiplication of two `unsigned int`. -/
def mul32 (a b : Nat) : Nat := (a * b) % 2 ^ 32

/-- Unary minus on a 32-bit word. -/
def neg32 (a : Nat) : Nat := (2 ^ 32 - a) % 2 ^ 32

/-- Bitwise complement `~a` of a 32-bit word. -/
def not32 (a : Nat) : Nat := 2 ^ 32 - 1 - a

/-- Left shift `a << s` of a 32-bit word by a count known to be below `32`. -/
def shlc (a s : Nat) : Nat := (a <<< s) % 2 ^ 32

/-- Left shift `a << s` of a 32-bit word by a run-time count. -/
def shl (t : Target) (a s : Nat) : Nat :=
  if s < 32 then (a <<< s) % 2 ^ 32 else t.shlBig a s % 2 ^ 32

/-- Right shift `a >> s` of a 32-bit word by a run-time count. -/
def shr (t : Target) (a s : Nat) : Nat :=
  if s < 32 then a >>> s else t.shrBig a s % 2 ^ 32

/-- The data members of the class `GenDiag0m2`; `d` is the heap array, with its length. -/
structure GenDiag0m2 where
  m : Nat
  n : Nat
  m2 : Nat
  mask : Nat
  dx : Nat
  dy : Nat
  d : List Nat

namespace GenDiag0m2

/-- The 32-bit van der Corput radical inverse in base 2, `GenDiag0m2::vdc`. -/
def vdc (bits : Nat) : Nat :=
  let bits := shlc bits 16 ||| (bits >>> 16)
  let bits := shlc (bits &&& 0x00ff00ff) 8 ||| ((bits &&& 0xff00ff00) >>> 8)
  let bits := shlc (bits &&& 0x0f0f0f0f) 4 ||| ((bits &&& 0xf0f0f0f0) >>> 4)
  let bits := shlc (bits &&& 0x33333333) 2 ||| ((bits &&& 0xcccccccc) >>> 2)
  let bits := shlc (bits &&& 0x55555555) 1 ||| ((bits &&& 0xaaaaaaaa) >>> 1)
  bits

/-- The constructor `GenDiag0m2::GenDiag0m2(m)`: the member initialisers, then the
table `d` of `sqrtN` diagonal shifts, filled for `k = 0, ..., sqrtN - 1`. -/
def new (t : Target) (m : Nat) : GenDiag0m2 :=
  let n := shl t 1 m
  let m2 := add32 m 1 >>> 1
  let mask := not32 (neg32 (shl t 1 m2))
  let sqrtN := shl t 1 (m >>> 1)
  if m &&& 1 ≠ 0 then
    -- odd
    let dx := m >>> 1
    let dy := m >>> 1
    { m := m, n := n, m2 := m2, mask := mask, dx := dx, dy := dy,
      d := (List.range sqrtN).map fun k => add32 (shr t (vdc k) (sub32 32 m)) k }
  else
    -- even
    let dx := sub32 (m >>> 1) 2
    let dy := m >>> 1
    { m := m, n := n, m2 := m2, mask := mask, dx := dx, dy := dy,
      d := (List.range sqrtN).map fun k =>
        add32 (add32 (shr t (vdc k) (sub32 32 m)) (k >>> 2)) (shl t 1 dx) }

/-- The read `d[k]`: the table entry, or whatever lies beyond the table (the source does
not check the index; `getChecked` keeps track of a read outside the table). -/
def readD (t : Target) (g : GenDiag0m2) (k : Nat) : Nat :=
  g.d.getD k (t.oob k % 2 ^ 32)

/-- The method `get(i, x, y)`; the pair returned is `(x, y)`. -/
def get (t : Target) (g : GenDiag0m2) (i : Nat) : Nat × Nat :=
  let k := shr t i g.m2
  let j := i &&& g.mask
  let x := add32 (readD t g k) (shl t j g.dx) &&& sub32 g.n 1
  let y := add32 k (shl t j g.dy)
  (x, y)

/-- The method `getShiftedTiling(px, py, i, x, y)` in a build that keeps `assert`
(`NDEBUG` not defined): `none` when the assertion `!(m & 1)` fails, otherwise the pair
`(x, y)`.  Both builds are in `getShiftedTilingRun`. -/
def getShiftedTiling (t : Target) (g : GenDiag0m2) (px py i : Nat) : Option (Nat × Nat) :=
  if g.m &&& 1 ≠ 0 then none
  else
    let (x, y) := get t g i
    let x := add32 x (mul32 (py &&& 3) (shl t 1 (sub32 g.m 2)))
    let x := x &&& not32 (neg32 (shl t 1 g.m))
    let x := add32 x (shl t px g.m)
    let y := add32 y (shl t py g.m)
    some (x, y)

/-- What a call of `getShiftedTiling` comes to. -/
inductive Outcome where
  /-- The call returns with `x` and `y` set. -/
  | point (x y : Nat)
  /-- The call is aborted by `assert(!(m & 1))`. -/
  | assertFailed
  /-- The call reads `d[k]` outside the allocated table: nothing is defined. -/
  | readOutside
  deriving DecidableEq

/-- The method `get(i, x, y)` with the read `d[k]` checked against the length of the
table: `none` when `k` is outside. -/
def getChecked (t : Target) (g : GenDiag0m2) (i : Nat) : Option (Nat × Nat) :=
  let k := shr t i g.m2
  let j := i &&& g.mask
  match g.d[k]? with
  | none => none
  | some dk =>
    let x := add32 dk (shl t j g.dx) &&& sub32 g.n 1
    let y := add32 k (shl t j g.dy)
    some (x, y)

/-- The method `getShiftedTiling(px, py, i, x, y)` in a build with `NDEBUG` defined
(`ndebug = true`, `assert` expands to nothing) or not defined (`ndebug = false`), with
the read of the table checked. -/
def getShiftedTilingRun (t : Target) (ndebug : Bool) (g : GenDiag0m2) (px py i : Nat) :
    Outcome :=
  if ndebug = false ∧ g.m &&& 1 ≠ 0 then Outcome.assertFailed
  else
    match getChecked t g i with
    | none => Outcome.readOutside
    | some (x, y) =>
      let x := add32 x (mul32 (py &&& 3) (shl t 1 (sub32 g.m 2)))
      let x := x &&& not32 (neg32 (shl t 1 g.m))
      let x := add32 x (shl t px g.m)
      let y := add32 y (shl t py g.m)
      Outcome.point x y

/-- The points `get(0), ..., get(n - 1)` in the order of their index. -/
def points (t : Target) (g : GenDiag0m2) : List (Nat × Nat) :=
  (List.range g.n).map (get t g)

/-- Membership of a point in the dyadic rectangle
`[p * 2^(m-a), (p+1) * 2^(m-a)) x [q * 2^a, (q+1) * 2^a)`. -/
def inRect (m a p q : Nat) (pt : Nat × Nat) : Bool :=
  decide (p * 2 ^ (m - a) ≤ pt.1 ∧ pt.1 < (p + 1) * 2 ^ (m - a) ∧
    q * 2 ^ a ≤ pt.2 ∧ pt.2 < (q + 1) * 2 ^ a)

/-- How many of the generator's points lie in the rectangle numbered `a`, `p`, `q`. -/
def countIn (t : Target) (g : GenDiag0m2) (a p q : Nat) : Nat :=
  ((points t g).filter (inRect g.m a p q)).length

/-- The (0,m,2)-net property in base 2: each dyadic rectangle of area `2^m` cells, of
every shape `a`, holds exactly one of the generator's points. -/
def IsNet (t : Target) (g : GenDiag0m2) : Prop :=
  ∀ a, a ≤ g.m → ∀ p, p < 2 ^ a → ∀ q, q < 2 ^ (g.m - a) → countIn t g a p q = 1

/-- The points of the tile `(px, py)`: `getShiftedTiling(px, py, i)` for `i = 0, ..., n - 1`. -/
def tilePoints (t : Target) (g : GenDiag0m2) (px py : Nat) : List (Option (Nat × Nat)) :=
  (List.range g.n).map (getShiftedTiling t g px py)

end GenDiag0m2

/-- The `b`-bit reversal of `k`: bit `p` of `k` (for `p < b`) becomes bit `b - 1 - p`. -/
def brev : Nat → Nat → Nat
  | 0, _ => 0
  | b + 1, k => (k % 2) * 2 ^ b + brev b (k / 2)

/-- Auxiliary closed form of the first coordinate as a function of the second one, `y`:
for odd `m = 2h + 1` it is used with `w = 2^(h+1)`, `D = 1`, `δ = 0`, and for even
`m = 2h` with `w = 2^h`, `D = 4`, `δ = 2^h`; `M = 2^m`. -/
def xForm (h w D δ M y : Nat) : Nat := (brev h (y % 2 ^ h) * w * D + δ + y) / D % M

/-! ## Word arithmetic in closed form -/

theorem two_pow_lt_word {s : Nat} (hs : s ≤ 31) : 2 ^ s < 2 ^ 32 :=
  Nat.pow_lt_pow_right (by norm_num) (by omega)

theorem shl_of_lt (t : Target) (a : Nat) {s : Nat} (hs : s < 32) :
    shl t a s = (a * 2 ^ s) % 2 ^ 32 := by
  simp [shl, hs, Nat.shiftLeft_eq]

theorem shr_of_lt (t : Target) (a : Nat) {s : Nat} (hs : s < 32) :
    shr t a s = a / 2 ^ s := by
  simp [shr, hs, Nat.shiftRight_eq_div_pow]

theorem shl_one (t : Target) {s : Nat} (hs : s ≤ 31) : shl t 1 s = 2 ^ s := by
  rw [shl_of_lt t 1 (by omega), Nat.one_mul, Nat.mod_eq_of_lt (two_pow_lt_word hs)]

theorem shl_lt_word (t : Target) (a s : Nat) : shl t a s < 2 ^ 32 := by
  unfold shl
  split <;> exact Nat.mod_lt _ (by norm_num)

theorem not32_neg32_two_pow {s : Nat} (hs : s ≤ 31) : not32 (neg32 (2 ^ s)) = 2 ^ s - 1 := by
  have h1 := two_pow_lt_word hs
  have h2 : 0 < 2 ^ s := Nat.pos_pow_of_pos s (by norm_num)
  unfold not32 neg32
  rw [Nat.mod_eq_of_lt (by omega)]
  omega

theorem sub32_two_pow_one {s : Nat} (hs : s ≤ 31) : sub32 (2 ^ s) 1 = 2 ^ s - 1 := by
  have h1 := two_pow_lt_word hs
  have h2 : 0 < 2 ^ s := Nat.pos_pow_of_pos s (by norm_num)
  unfold sub32
  omega

namespace GenDiag0m2

/-! ## The members set by the constructor -/

theorem new_m (t : Target) (m : Nat) : (new t m).m = m := by
  unfold new
  dsimp only
  split <;> rfl

theorem new_n (t : Target) {m : Nat} (hm : m ≤ 31) : (new t m).n = 2 ^ m := by
  unfold new
  dsimp only
  split <;> exact shl_one t hm

theorem new_m2 (t : Target) {m : Nat} (hm : m ≤ 31) : (new t m).m2 = (m + 1) / 2 := by
  have h : add32 m 1 >>> 1 = (m + 1) / 2 := by
    unfold add32
    rw [Nat.shiftRight_eq_div_pow]
    omega
  unfold new
  dsimp only
  split <;> exact h

theorem new_mask (t : Target) {m : Nat} (hm : m ≤ 31) :
    (new t m).mask = 2 ^ ((m + 1) / 2) - 1 := by
  have h : add32 m 1 >>> 1 = (m + 1) / 2 := by
    unfold add32
    rw [Nat.shiftRight_eq_div_pow]
    omega
  have h2 : not32 (neg32 (shl t 1 (add32 m 1 >>> 1))) = 2 ^ ((m + 1) / 2) - 1 := by
    rw [h, shl_one t (by omega), not32_neg32_two_pow (by omega)]
  unfold new
  dsimp only
  split <;> exact h2

theorem new_dy (t : Target) (m : Nat) : (new t m).dy = m / 2 := by
  have h : m >>> 1 = m / 2 := by rw [Nat.shiftRight_eq_div_pow, Nat.pow_one]
  unfold new
  dsimp only
  split <;> exact h

theorem new_d_length (t : Target) {m : Nat} (hm : m ≤ 31) :
    (new t m).d.length = 2 ^ (m / 2) := by
  have h : shl t 1 (m >>> 1) = 2 ^ (m / 2) := by
    rw [Nat.shiftRight_eq_div_pow, Nat.pow_one, shl_one t (by omega)]
  unfold new
  dsimp only
  split <;> simp [h]

end GenDiag0m2

/-! ## Splitting an index into diagonal and position -/

theorem rot_lt {A B i : Nat} (hi : i < A * B) : i / A + i % A * B < A * B := by
  have hA : 0 < A := Nat.pos_of_ne_zero (by rintro rfl; simp at hi)
  have hq : i / A < B := Nat.div_lt_of_lt_mul hi
  have hr : i % A + 1 ≤ A := Nat.mod_lt i hA
  have h := Nat.mul_le_mul_right B hr
  rw [Nat.add_mul, Nat.one_mul] at h
  omega

theorem rot_inj {A B i i' : Nat} (hi : i < A * B) (hi' : i' < A * B)
    (h : i / A + i % A * B = i' / A + i' % A * B) : i = i' := by
  have hq : i / A < B := Nat.div_lt_of_lt_mul hi
  have hq' : i' / A < B := Nat.div_lt_of_lt_mul hi'
  have hB : 0 < B := Nat.lt_of_le_of_lt (Nat.zero_le _) hq
  have e1 : (i / A + i % A * B) % B = i / A := by
    rw [Nat.add_mul_mod_self_right, Nat.mod_eq_of_lt hq]
  have e1' : (i' / A + i' % A * B) % B = i' / A := by
    rw [Nat.add_mul_mod_self_right, Nat.mod_eq_of_lt hq']
  have e2 : (i / A + i % A * B) / B = i % A := by
    rw [Nat.add_mul_div_right _ _ hB, Nat.div_eq_of_lt hq, Nat.zero_add]
  have e2' : (i' / A + i' % A * B) / B = i' % A := by
    rw [Nat.add_mul_div_right _ _ hB, Nat.div_eq_of_lt hq', Nat.zero_add]
  have hdiv : i / A = i' / A := by rw [← e1, ← e1', h]
  have hmod : i % A = i' % A := by rw [← e2, ← e2', h]
  rw [← Nat.div_add_mod i A, ← Nat.div_add_mod i' A, hdiv, hmod]

theorem half_split (m : Nat) : 2 ^ m = 2 ^ ((m + 1) / 2) * 2 ^ (m / 2) := by
  rw [← pow_add]
  congr 1
  omega

namespace GenDiag0m2

/-! ## The two coordinates in closed form -/

/-- The diagonal index `k = i >> m2` computed by `get`. -/
theorem get_diag (t : Target) {m : Nat} (hm : m ≤ 31) (i : Nat) :
    shr t i (new t m).m2 = i / 2 ^ ((m + 1) / 2) := by
  rw [new_m2 t hm, shr_of_lt t i (by omega)]

/-- The position `j = i & mask` computed by `get`. -/
theorem get_pos (t : Target) {m : Nat} (hm : m ≤ 31) (i : Nat) :
    i &&& (new t m).mask = i % 2 ^ ((m + 1) / 2) := by
  rw [new_mask t hm, Nat.and_pow_two_sub_one_eq_mod]

theorem get_snd (t : Target) {m i : Nat} (hm : m ≤ 31) (hi : i < 2 ^ m) :
    (get t (new t m) i).2 = i / 2 ^ ((m + 1) / 2) + i % 2 ^ ((m + 1) / 2) * 2 ^ (m / 2) := by
  have hlt : i / 2 ^ ((m + 1) / 2) + i % 2 ^ ((m + 1) / 2) * 2 ^ (m / 2) < 2 ^ m := by
    have h := half_split m
    rw [h] at hi ⊢
    exact rot_lt hi
  have hw := two_pow_lt_word hm
  have hle : i % 2 ^ ((m + 1) / 2) * 2 ^ (m / 2) < 2 ^ 32 :=
    Nat.lt_of_le_of_lt (Nat.le_add_left _ _) (Nat.lt_trans hlt hw)
  show add32 (shr t i (new t m).m2) (shl t (i &&& (new t m).mask) (new t m).dy) = _
  rw [get_diag t hm, get_pos t hm, new_dy, shl_of_lt t _ (by omega), Nat.mod_eq_of_lt hle]
  unfold add32
  exact Nat.mod_eq_of_lt (Nat.lt_trans hlt hw)

theorem get_fst_lt (t : Target) {m : Nat} (hm : m ≤ 31) (i : Nat) :
    (get t (new t m) i).1 < 2 ^ m := by
  show add32 _ _ &&& sub32 (new t m).n 1 < 2 ^ m
  rw [new_n t hm, sub32_two_pow_one hm, Nat.and_pow_two_sub_one_eq_mod]
  exact Nat.mod_lt _ (Nat.pos_pow_of_pos m (by norm_num))

theorem get_snd_lt (t : Target) {m i : Nat} (hm : m ≤ 31) (hi : i < 2 ^ m) :
    (get t (new t m) i).2 < 2 ^ m := by
  rw [get_snd t hm hi]
  have h := half_split m
  rw [h] at hi ⊢
  exact rot_lt hi

theorem get_snd_inj (t : Target) {m i i' : Nat} (hm : m ≤ 31) (hi : i < 2 ^ m)
    (hi' : i' < 2 ^ m) (h : (get t (new t m) i).2 = (get t (new t m) i').2) : i = i' := by
  rw [get_snd t hm hi, get_snd t hm hi'] at h
  rw [half_split m] at hi hi'
  exact rot_inj hi hi' h

end GenDiag0m2

namespace GenDiag0m2

/-! ## The net property, distinctness and range of `get` -/

/-- C1: the points of `GenDiag0m2(m)` are claimed to form a (0,m,2)-net for every
`m` from 0 to 31.  For `m = 2` they do not: the points are `(0,0)`, `(0,2)`, `(2,1)`,
`(2,3)`, and the rectangle `a = 2`, `p = 1`, `q = 0` (the column `1 ≤ x < 2`) holds
none of them, on a machine that masks the shift count and on one that shifts all
bits out alike. -/
theorem net_fails_at_two :
    countIn maskCount (new maskCount 2) 2 1 0 = 0 ∧ ¬ IsNet maskCount (new maskCount 2) ∧
    countIn zeroFill (new zeroFill 2) 2 1 0 = 0 ∧ ¬ IsNet zeroFill (new zeroFill 2) := by
  have h1 : countIn maskCount (new maskCount 2) 2 1 0 = 0 := by decide
  have h2 : countIn zeroFill (new zeroFill 2) 2 1 0 = 0 := by decide
  refine ⟨h1, fun h => ?_, h2, fun h => ?_⟩
  · have := h 2 (by decide) 1 (by decide) 0 (by decide)
    rw [h1] at this
    exact absurd this (by decide)
  · have := h 2 (by decide) 1 (by decide) 0 (by decide)
    rw [h2] at this
    exact absurd this (by decide)

/-- C2: for `m ≤ 31`, the list of the `n` points has length `n = 2^m` and no repeated
entry, and two different indices below `n` give different pairs `(x, y)`. -/
theorem get_distinct (t : Target) (m : Nat) (hm : m ≤ 31) :
    (points t (new t m)).length = 2 ^ m ∧ (points t (new t m)).Nodup ∧
    ∀ i j, i < (new t m).n → j < (new t m).n → i ≠ j →
      get t (new t m) i ≠ get t (new t m) j := by
  have hn := new_n t hm
  have inj : ∀ i j, i < (new t m).n → j < (new t m).n →
      get t (new t m) i = get t (new t m) j → i = j := by
    intro i j hi hj h
    rw [hn] at hi hj
    exact get_snd_inj t hm hi hj (congrArg Prod.snd h)
  refine ⟨by simp [points, hn], ?_, fun i j hi hj hij h => hij (inj i j hi hj h)⟩
  unfold points
  refine (List.nodup_map_iff_inj_on (List.nodup_range _)).2 ?_
  intro i hi j hj h
  exact inj i j (List.mem_range.1 hi) (List.mem_range.1 hj) h

theorem get_distinct_witness :
    2 ≤ 31 ∧ 1 < (new maskCount 2).n ∧ 3 < (new maskCount 2).n ∧ (1 : Nat) ≠ 3 ∧
    get maskCount (new maskCount 2) 1 ≠ get maskCount (new maskCount 2) 3 :=
  ⟨by decide, by decide, by decide, by decide,
    (get_distinct maskCount 2 (by decide)).2.2 1 3 (by decide) (by decide) (by decide)⟩

/-- C3: for `m ≤ 31` and an index `i` below `n`, `get` returns `x < n` and `y < n`,
and the sum `k + (j << dy)` stays below `n` before any reduction modulo `2^32`. -/
theorem get_range (t : Target) (m i : Nat) (hm : m ≤ 31) (hi : i < (new t m).n) :
    (get t (new t m) i).1 < (new t m).n ∧ (get t (new t m) i).2 < (new t m).n ∧
    shr t i (new t m).m2 + shl t (i &&& (new t m).mask) (new t m).dy < (new t m).n := by
  have hn := new_n t hm
  rw [hn] at hi ⊢
  refine ⟨get_fst_lt t hm i, get_snd_lt t hm hi, ?_⟩
  have hlt : i / 2 ^ ((m + 1) / 2) + i % 2 ^ ((m + 1) / 2) * 2 ^ (m / 2) < 2 ^ m := by
    have h := half_split m
    rw [h] at hi ⊢
    exact rot_lt hi
  have hle : i % 2 ^ ((m + 1) / 2) * 2 ^ (m / 2) < 2 ^ 32 :=
    Nat.lt_of_le_of_lt (Nat.le_add_left _ _) (Nat.lt_trans hlt (two_pow_lt_word hm))
  rw [get_diag t hm, get_pos t hm, new_dy, shl_of_lt t _ (by omega), Nat.mod_eq_of_lt hle]
  exact hlt

theorem get_range_witness :
    5 ≤ 31 ∧ 19 < (new zeroFill 5).n ∧
    ((get zeroFill (new zeroFill 5) 19).1 < (new zeroFill 5).n ∧
      (get zeroFill (new zeroFill 5) 19).2 < (new zeroFill 5).n ∧
      shr zeroFill 19 (new zeroFill 5).m2 +
        shl zeroFill (19 &&& (new zeroFill 5).mask) (new zeroFill 5).dy <
          (new zeroFill 5).n) :=
  ⟨by decide, by decide, get_range zeroFill 5 19 (by decide) (by decide)⟩

end GenDiag0m2

/-! ## The shifted tiling in closed form -/

theorem exp_le_of_mul_lt {c m : Nat} (h : (c + 1) * 2 ^ m < 2 ^ 32) : m ≤ 31 := by
  by_contra hcon
  have h1 : 2 ^ 32 ≤ 2 ^ m := Nat.pow_le_pow_right (by norm_num) (by omega)
  have h4 : 2 ^ m ≤ (c + 1) * 2 ^ m := Nat.le_mul_of_pos_left _ (Nat.succ_pos c)
  exact absurd (Nat.lt_of_le_of_lt (Nat.le_trans h1 h4) h) (Nat.lt_irrefl _)

theorem add32_tile {c v N : Nat} (hv : v < N) (h : (c + 1) * N ≤ 2 ^ 32) :
    add32 v ((c * N) % 2 ^ 32) = v + c * N := by
  rw [Nat.add_mul, Nat.one_mul] at h
  unfold add32
  rw [Nat.mod_eq_of_lt (by omega), Nat.mod_eq_of_lt (by omega)]

namespace GenDiag0m2

theorem row_shift (t : Target) {m : Nat} (hm : m ≤ 31) (he : m % 2 = 0) (gx py : Nat) :
    add32 gx (mul32 (py &&& 3) (shl t 1 (sub32 m 2))) &&& not32 (neg32 (shl t 1 m)) =
      (gx + (py &&& 3) * 2 ^ (m - 2)) % 2 ^ m := by
  rw [shl_one t hm, not32_neg32_two_pow hm, Nat.and_pow_two_sub_one_eq_mod]
  rcases Nat.eq_zero_or_pos m with h0 | hpos
  · subst h0
    simp [Nat.mod_one]
  · have hs : sub32 m 2 = m - 2 := by unfold sub32; omega
    have hd : 2 ^ m ∣ 2 ^ 32 := pow_dvd_pow 2 (by omega)
    rw [hs, shl_one t (by omega)]
    unfold add32 mul32
    rw [Nat.mod_mod_of_dvd _ hd, Nat.add_mod, Nat.mod_mod_of_dvd _ hd, ← Nat.add_mod]

theorem getShiftedTiling_even (t : Target) {m px py i : Nat} (he : m % 2 = 0)
    (hi : i < 2 ^ m) (hpx : (px + 1) * 2 ^ m < 2 ^ 32) (hpy : (py + 1) * 2 ^ m < 2 ^ 32) :
    getShiftedTiling t (new t m) px py i =
      some (((get t (new t m) i).1 + (py &&& 3) * 2 ^ (m - 2)) % 2 ^ m + px * 2 ^ m,
        (get t (new t m) i).2 + py * 2 ^ m) := by
  have hm : m ≤ 31 := exp_le_of_mul_lt hpx
  have hodd : ¬ (m &&& 1 ≠ 0) := by
    rw [Nat.and_one_is_mod]
    omega
  have hpos : 0 < 2 ^ m := Nat.pos_pow_of_pos m (by norm_num)
  unfold getShiftedTiling
  rw [new_m, if_neg hodd]
  dsimp only
  rw [row_shift t hm he, shl_of_lt t px (by omega), shl_of_lt t py (by omega),
    add32_tile (Nat.mod_lt _ hpos) (Nat.le_of_lt hpx),
    add32_tile (get_snd_lt t hm hi) (Nat.le_of_lt hpy)]

end GenDiag0m2

namespace GenDiag0m2

/-! ## The shifted tiling -/

/-- C4: for even `m`, an index `i < n = 2^m` and tile coordinates with `(px+1) * n` and
`(py+1) * n` below `2^32`, `getShiftedTiling(px, py, i)` returns
`x = ((gx + (py & 3) * 2^(m-2)) mod n) + px * n` and `y = gy + py * n`, where
`(gx, gy) = get(i)`. -/
theorem getShiftedTiling_formula (t : Target) (m px py i : Nat) (he : m % 2 = 0)
    (hi : i < 2 ^ m) (hpx : (px + 1) * 2 ^ m < 2 ^ 32) (hpy : (py + 1) * 2 ^ m < 2 ^ 32) :
    (new t m).n = 2 ^ m ∧
    getShiftedTiling t (new t m) px py i =
      some (((get t (new t m) i).1 + (py &&& 3) * 2 ^ (m - 2)) % (new t m).n
              + px * (new t m).n,
            (get t (new t m) i).2 + py * (new t m).n) := by
  have hn := new_n t (exp_le_of_mul_lt hpx)
  rw [hn]
  exact ⟨rfl, getShiftedTiling_even t he hi hpx hpy⟩

theorem getShiftedTiling_formula_witness :
    4 % 2 = 0 ∧ 5 < 2 ^ 4 ∧ (1 + 1) * 2 ^ 4 < 2 ^ 32 ∧ (2 + 1) * 2 ^ 4 < 2 ^ 32 ∧
    ((new maskCount 4).n = 2 ^ 4 ∧
      getShiftedTiling maskCount (new maskCount 4) 1 2 5 =
        some (((get maskCount (new maskCount 4) 5).1 + (2 &&& 3) * 2 ^ (4 - 2))
                % (new maskCount 4).n + 1 * (new maskCount 4).n,
              (get maskCount (new maskCount 4) 5).2 + 2 * (new maskCount 4).n)) :=
  ⟨by decide, by decide, by decide, by decide,
    getShiftedTiling_formula maskCount 4 1 2 5 (by decide) (by decide) (by decide)
      (by decide)⟩

/-- C5: for even `m`, `i < n = 2^m` and `(px+1) * n`, `(py+1) * n` below `2^32`, the
point returned by `getShiftedTiling(px, py, i)` satisfies `px * n ≤ x < (px+1) * n`
and `py * n ≤ y < (py+1) * n`; the integer parts of `x / n` and `y / n` are `px`
and `py`. -/
theorem getShiftedTiling_in_tile (t : Target) (m px py i : Nat) (he : m % 2 = 0)
    (hi : i < 2 ^ m) (hpx : (px + 1) * 2 ^ m < 2 ^ 32) (hpy : (py + 1) * 2 ^ m < 2 ^ 32) :
    ∃ x y, getShiftedTiling t (new t m) px py i = some (x, y) ∧
      px * 2 ^ m ≤ x ∧ x < (px + 1) * 2 ^ m ∧ py * 2 ^ m ≤ y ∧ y < (py + 1) * 2 ^ m ∧
      x / 2 ^ m = px ∧ y / 2 ^ m = py := by
  have hm : m ≤ 31 := exp_le_of_mul_lt hpx
  have hpos : 0 < 2 ^ m := Nat.pos_pow_of_pos m (by norm_num)
  have hx : ((get t (new t m) i).1 + (py &&& 3) * 2 ^ (m - 2)) % 2 ^ m < 2 ^ m :=
    Nat.mod_lt _ hpos
  have hy := get_snd_lt t hm hi
  refine ⟨_, _, getShiftedTiling_even t he hi hpx hpy, ?_, ?_, ?_, ?_, ?_, ?_⟩
  · exact Nat.le_add_left _ _
  · rw [Nat.add_mul, Nat.one_mul]; omega
  · exact Nat.le_add_left _ _
  · rw [Nat.add_mul, Nat.one_mul]; omega
  · rw [Nat.add_mul_div_right _ _ hpos, Nat.div_eq_of_lt hx, Nat.zero_add]
  · rw [Nat.add_mul_div_right _ _ hpos, Nat.div_eq_of_lt hy, Nat.zero_add]

theorem getShiftedTiling_in_tile_witness :
    6 % 2 = 0 ∧ 63 < 2 ^ 6 ∧ (3 + 1) * 2 ^ 6 < 2 ^ 32 ∧ (1 + 1) * 2 ^ 6 < 2 ^ 32 ∧
    ∃ x y, getShiftedTiling zeroFill (new zeroFill 6) 3 1 63 = some (x, y) ∧
      3 * 2 ^ 6 ≤ x ∧ x < (3 + 1) * 2 ^ 6 ∧ 1 * 2 ^ 6 ≤ y ∧ y < (1 + 1) * 2 ^ 6 ∧
      x / 2 ^ 6 = 3 ∧ y / 2 ^ 6 = 1 :=
  ⟨by decide, by decide, by decide, by decide,
    getShiftedTiling_in_tile zeroFill 6 3 1 63 (by decide) (by decide) (by decide)
      (by decide)⟩

end GenDiag0m2

/-! ## Tiles do not share points -/

theorem tile_split {N r r' c c' : Nat} (hr : r < N) (hr' : r' < N)
    (h : r + c * N = r' + c' * N) : c = c' ∧ r = r' := by
  have hN : 0 < N := Nat.lt_of_le_of_lt (Nat.zero_le _) hr
  have hc : (r + c * N) / N = c := by
    rw [Nat.add_mul_div_right _ _ hN, Nat.div_eq_of_lt hr, Nat.zero_add]
  have hc' : (r' + c' * N) / N = c' := by
    rw [Nat.add_mul_div_right _ _ hN, Nat.div_eq_of_lt hr', Nat.zero_add]
  have e : c = c' := by rw [← hc, ← hc', h]
  subst e
  exact ⟨rfl, Nat.add_right_cancel h⟩

namespace GenDiag0m2

theorem tiling_point_inj (t : Target) {m px py i px' py' i' : Nat} (he : m % 2 = 0)
    (hi : i < 2 ^ m) (hpx : (px + 1) * 2 ^ m < 2 ^ 32) (hpy : (py + 1) * 2 ^ m < 2 ^ 32)
    (hi' : i' < 2 ^ m) (hpx' : (px' + 1) * 2 ^ m < 2 ^ 32)
    (hpy' : (py' + 1) * 2 ^ m < 2 ^ 32)
    (h : getShiftedTiling t (new t m) px py i = getShiftedTiling t (new t m) px' py' i') :
    px = px' ∧ py = py' ∧ i = i' := by
  have hm : m ≤ 31 := exp_le_of_mul_lt hpx
  have hpos : 0 < 2 ^ m := Nat.pos_pow_of_pos m (by norm_num)
  rw [getShiftedTiling_even t he hi hpx hpy, getShiftedTiling_even t he hi' hpx' hpy'] at h
  have hpair := Option.some.inj h
  have hx := tile_split (Nat.mod_lt _ hpos) (Nat.mod_lt _ hpos) (congrArg Prod.fst hpair)
  have hy := tile_split (get_snd_lt t hm hi) (get_snd_lt t hm hi')
    (congrArg Prod.snd hpair)
  exact ⟨hx.1, hy.1, get_snd_inj t hm hi hi' hy.2⟩

/-- C6: for even `m` and tile coordinates with `(px+1) * n` and `(py+1) * n` below
`2^32`, the tile `(px, py)` receives `n = 2^m` points, no two of them equal, and a point
of the tile `(px, py)` with index `i` equals a point of a tile `(px', py')` with index
`i'` only when `px = px'`, `py = py'` and `i = i'`. -/
theorem getShiftedTiling_injective (t : Target) (m px py : Nat) (he : m % 2 = 0)
    (hpx : (px + 1) * 2 ^ m < 2 ^ 32) (hpy : (py + 1) * 2 ^ m < 2 ^ 32) :
    (tilePoints t (new t m) px py).length = 2 ^ m ∧
    (tilePoints t (new t m) px py).Nodup ∧
    ∀ px' py' i i', (px' + 1) * 2 ^ m < 2 ^ 32 → (py' + 1) * 2 ^ m < 2 ^ 32 →
      i < 2 ^ m → i' < 2 ^ m →
      getShiftedTiling t (new t m) px py i = getShiftedTiling t (new t m) px' py' i' →
      px = px' ∧ py = py' ∧ i = i' := by
  have hn := new_n t (exp_le_of_mul_lt hpx)
  refine ⟨by simp [tilePoints, hn], ?_, ?_⟩
  · unfold tilePoints
    rw [hn]
    refine (List.nodup_map_iff_inj_on (List.nodup_range _)).2 ?_
    intro i hi j hj h
    exact (tiling_point_inj t he (List.mem_range.1 hi) hpx hpy (List.mem_range.1 hj)
      hpx hpy h).2.2
  · intro px' py' i i' hpx' hpy' hi hi' h
    exact tiling_point_inj t he hi hpx hpy hi' hpx' hpy' h

theorem getShiftedTiling_injective_witness :
    4 % 2 = 0 ∧ (0 + 1) * 2 ^ 4 < 2 ^ 32 ∧ (1 + 1) * 2 ^ 4 < 2 ^ 32 ∧
    (tilePoints maskCount (new maskCount 4) 0 1).length = 2 ^ 4 ∧
    (tilePoints maskCount (new maskCount 4) 0 1).Nodup ∧
    ∀ px' py' i i', (px' + 1) * 2 ^ 4 < 2 ^ 32 → (py' + 1) * 2 ^ 4 < 2 ^ 32 →
      i < 2 ^ 4 → i' < 2 ^ 4 →
      getShiftedTiling maskCount (new maskCount 4) 0 1 i =
        getShiftedTiling maskCount (new maskCount 4) px' py' i' →
      0 = px' ∧ 1 = py' ∧ i = i' :=
  ⟨by decide, by decide, by decide,
    getShiftedTiling_injective maskCount 4 0 1 (by decide) (by decide) (by decide)⟩

theorem read_inside (t : Target) {m i : Nat} (hm : m ≤ 31) (hi : i < 2 ^ m) :
    (new t m).d[shr t i (new t m).m2]? =
      some (readD t (new t m) (shr t i (new t m).m2)) := by
  have hk : shr t i (new t m).m2 < (new t m).d.length := by
    rw [half_split m] at hi
    rw [get_diag t hm, new_d_length t hm]
    exact Nat.div_lt_of_lt_mul hi
  unfold readD
  rw [List.getD_eq_getElem _ _ hk, List.getElem?_eq_getElem hk]

theorem getChecked_inside (t : Target) {m i : Nat} (hm : m ≤ 31) (hi : i < 2 ^ m) :
    getChecked t (new t m) i = some (get t (new t m) i) := by
  unfold getChecked
  dsimp only
  rw [read_inside t hm hi]
  rfl

/-- C7, as the code has it: for `m ≤ 31` and an index `i < n`, the call of
`getShiftedTiling` is aborted by its assertion exactly when the assertion is compiled
in and `m` is odd; in every other case (even `m`, or any `m` with `NDEBUG`) it
returns, for every `px` and `py`, the point that lines 100 to 106 of the source compute
from `get(i)`; in a build with the assertion it returns `(x, y)` exactly when
`getShiftedTiling` of the build with `assert` does. -/
theorem getShiftedTiling_outcome (t : Target) (ndebug : Bool) (m px py i : Nat)
    (hm : m ≤ 31) (hi : i < (new t m).n) :
    (getShiftedTilingRun t ndebug (new t m) px py i = Outcome.assertFailed ↔
      ndebug = false ∧ m % 2 = 1) ∧
    (¬ (ndebug = false ∧ m % 2 = 1) →
      getShiftedTilingRun t ndebug (new t m) px py i =
        Outcome.point
          (add32
            (add32 (get t (new t m) i).1 (mul32 (py &&& 3) (shl t 1 (sub32 m 2))) &&&
              not32 (neg32 (shl t 1 m)))
            (shl t px m))
          (add32 (get t (new t m) i).2 (shl t py m))) ∧
    ∀ x y, getShiftedTilingRun t false (new t m) px py i = Outcome.point x y ↔
      getShiftedTiling t (new t m) px py i = some (x, y) := by
  rw [new_n t hm] at hi
  have hc := getChecked_inside t hm hi
  have hand : m &&& 1 = m % 2 := Nat.and_one_is_mod m
  unfold getShiftedTilingRun getShiftedTiling
  rw [hc, new_m, hand]
  refine ⟨?_, ?_, ?_⟩
  · by_cases h : ndebug = false ∧ m % 2 ≠ 0
    · rw [if_pos h]
      have h1 : m % 2 = 1 := by omega
      simp [h.1, h1]
    · rw [if_neg h]
      constructor
      · intro hp
        exact absurd hp (by simp)
      · intro hp
        exact absurd ⟨hp.1, by omega⟩ h
  · intro h
    have h' : ¬ (ndebug = false ∧ m % 2 ≠ 0) := fun hp => h ⟨hp.1, by omega⟩
    rw [if_neg h']
  · intro x y
    by_cases h : m % 2 ≠ 0
    · rw [if_pos ⟨rfl, h⟩, if_pos h]
      simp
    · rw [if_neg (fun hp => h hp.2), if_neg h]
      simp

theorem getShiftedTiling_outcome_witness :
    3 ≤ 31 ∧ 5 < (new maskCount 3).n ∧ ¬ (true = false ∧ 3 % 2 = 1) ∧
    getShiftedTilingRun maskCount true (new maskCount 3) 1 1 5 =
      Outcome.point
        (add32
          (add32 (get maskCount (new maskCount 3) 5).1
              (mul32 (1 &&& 3) (shl maskCount 1 (sub32 3 2))) &&&
            not32 (neg32 (shl maskCount 1 3)))
          (shl maskCount 1 3))
        (add32 (get maskCount (new maskCount 3) 5).2 (shl maskCount 1 3)) :=
  ⟨by decide, by decide, by decide,
    (getShiftedTiling_outcome maskCount true 3 1 1 5 (by decide) (by decide)).2.1
      (by decide)⟩

/-- C7 as stated fails on the code: compiled with `NDEBUG`, `getShiftedTiling(1, 1, 5)`
of the generator for the odd `m = 3` does not fail but returns the point `(9, 11)`;
and for the even `m = 4` the index `i = 16 = n` makes `get` read `d[4]`, beyond the
four entries of the table, so that no point is defined. -/
theorem getShiftedTiling_returns_for_odd :
    getShiftedTilingRun maskCount true (new maskCount 3) 1 1 5 = Outcome.point 9 11 ∧
    getShiftedTilingRun zeroFill true (new zeroFill 3) 1 1 5 = Outcome.point 9 11 ∧
    getShiftedTilingRun maskCount false (new maskCount 4) 0 0 16 = Outcome.readOutside := by
  refine ⟨by decide, by decide, by decide⟩

end GenDiag0m2

namespace GenDiag0m2

/-! ## The offset table and the small cases -/

/-- C8: for `m ≤ 31` the table built by the constructor has length
`2^floor(m/2) = 2^(m - m2)`, and for every index `i < n` the diagonal index
`k = i >> m2` of `get` is below that length, so `d[k]` is an entry of the table. -/
theorem diagonal_in_bounds (t : Target) (m : Nat) (hm : m ≤ 31) :
    (new t m).d.length = 2 ^ (m / 2) ∧ 2 ^ (m / 2) = 2 ^ (m - (new t m).m2) ∧
    ∀ i, i < (new t m).n →
      shr t i (new t m).m2 < (new t m).d.length ∧
      (new t m).d[shr t i (new t m).m2]? =
        some (readD t (new t m) (shr t i (new t m).m2)) := by
  have hlen := new_d_length t hm
  have hm2 := new_m2 t hm
  have hn := new_n t hm
  have hk : ∀ i, i < (new t m).n → shr t i (new t m).m2 < (new t m).d.length := by
    intro i hi
    rw [hn, half_split m] at hi
    rw [get_diag t hm, hlen]
    exact Nat.div_lt_of_lt_mul hi
  refine ⟨hlen, ?_, fun i hi => ⟨hk i hi, ?_⟩⟩
  · rw [hm2]
    congr 1
    omega
  · unfold readD
    rw [List.getD_eq_getElem _ _ (hk i hi), List.getElem?_eq_getElem (hk i hi)]

theorem diagonal_in_bounds_witness :
    7 ≤ 31 ∧ 127 < (new maskCount 7).n ∧
    shr maskCount 127 (new maskCount 7).m2 < (new maskCount 7).d.length :=
  ⟨by decide, by decide, ((diagonal_in_bounds maskCount 7 (by decide)).2.2 127 (by decide)).1⟩

/-- C9: for `m = 0` the constructor yields `n = 1` and a table of length 1, and
`get(0)` returns `(0, 0)`, whatever the machine does with the shifts by `32` and by
`0xFFFFFFFE` that occur in this case. -/
theorem degenerate_zero (t : Target) :
    (new t 0).n = 1 ∧ (new t 0).d.length = 1 ∧ get t (new t 0) 0 = (0, 0) := by
  have h0 : (0 : Nat) ≤ 31 := by decide
  have hx := get_fst_lt t h0 0
  have hy := get_snd t h0 (show 0 < 2 ^ 0 by decide)
  refine ⟨new_n t h0, new_d_length t h0, Prod.ext ?_ ?_⟩
  · show (get t (new t 0) 0).1 = 0
    omega
  · show (get t (new t 0) 0).2 = 0
    rw [hy]
    rfl

/-- C10: for `m = 2` the four points `get(0), ..., get(3)` are `(0,0)`, `(0,2)`,
`(2,1)`, `(2,3)`: four distinct points, one in each row and one in each quadrant,
but two in each of the columns `x = 0` and `x = 2` and none in the columns `x = 1`
and `x = 3`; the claim that every elementary rectangle holds exactly one fails. -/
theorem points_at_two :
    points maskCount (new maskCount 2) = [(0, 0), (0, 2), (2, 1), (2, 3)] ∧
    points zeroFill (new zeroFill 2) = [(0, 0), (0, 2), (2, 1), (2, 3)] ∧
    (points maskCount (new maskCount 2)).Nodup ∧
    countIn maskCount (new maskCount 2) 0 0 0 = 1 ∧
    countIn maskCount (new maskCount 2) 0 0 1 = 1 ∧
    countIn maskCount (new maskCount 2) 0 0 2 = 1 ∧
    countIn maskCount (new maskCount 2) 0 0 3 = 1 ∧
    countIn maskCount (new maskCount 2) 1 0 0 = 1 ∧
    countIn maskCount (new maskCount 2) 1 0 1 = 1 ∧
    countIn maskCount (new maskCount 2) 1 1 0 = 1 ∧
    countIn maskCount (new maskCount 2) 1 1 1 = 1 ∧
    countIn maskCount (new maskCount 2) 2 0 0 = 2 ∧
    countIn maskCount (new maskCount 2) 2 1 0 = 0 ∧
    countIn maskCount (new maskCount 2) 2 2 0 = 2 ∧
    countIn maskCount (new maskCount 2) 2 3 0 = 0 := by
  refine ⟨by decide, by decide, by decide, by decide, by decide, by decide, by decide,
    by decide, by decide, by decide, by decide, by decide, by decide, by decide,
    by decide⟩

end GenDiag0m2

/-! ## The radical inverse `vdc` reverses the 32 bits -/

theorem high_bit_false {w : Nat} (hw : w < 2 ^ 32) {i : Nat} (hi : 32 ≤ i) :
    w.testBit i = false :=
  Nat.testBit_lt_two_pow (Nat.lt_of_lt_of_le hw (Nat.pow_le_pow_right (by norm_num) hi))

theorem swap_testBit (x lo hi s i : Nat) :
    (shlc (x &&& lo) s ||| ((x &&& hi) >>> s)).testBit i =
      ((decide (i < 32) && (decide (s ≤ i) && (x.testBit (i - s) && lo.testBit (i - s)))) ||
        (x.testBit (s + i) && hi.testBit (s + i))) := by
  unfold shlc
  simp only [Nat.testBit_or, Nat.testBit_and, Nat.testBit_shiftRight, Nat.testBit_shiftLeft,
    Nat.testBit_mod_two_pow, ge_iff_le]

theorem half_swap_testBit (x i : Nat) :
    (shlc x 16 ||| (x >>> 16)).testBit i =
      ((decide (i < 32) && (decide (16 ≤ i) && x.testBit (i - 16))) || x.testBit (16 + i)) := by
  unfold shlc
  simp only [Nat.testBit_or, Nat.testBit_shiftRight, Nat.testBit_shiftLeft,
    Nat.testBit_mod_two_pow, ge_iff_le]

theorem stage16 {x : Nat} (hx : x < 2 ^ 32) (i : Nat) (hi : i < 32) :
    (shlc x 16 ||| (x >>> 16)).testBit i = x.testBit (i ^^^ 16) := by
  rw [half_swap_testBit]
  have h32 : ∀ j, 32 ≤ j → x.testBit j = false := fun j hj => high_bit_false hx hj
  interval_cases i <;> simp [h32]

theorem stage8 (x i : Nat) (hi : i < 32) :
    (shlc (x &&& 0x00ff00ff) 8 ||| ((x &&& 0xff00ff00) >>> 8)).testBit i =
      x.testBit (i ^^^ 8) := by
  rw [swap_testBit]
  interval_cases i <;> simp [Nat.testBit]

theorem stage4 (x i : Nat) (hi : i < 32) :
    (shlc (x &&& 0x0f0f0f0f) 4 ||| ((x &&& 0xf0f0f0f0) >>> 4)).testBit i =
      x.testBit (i ^^^ 4) := by
  rw [swap_testBit]
  interval_cases i <;> simp [Nat.testBit]

theorem stage2 (x i : Nat) (hi : i < 32) :
    (shlc (x &&& 0x33333333) 2 ||| ((x &&& 0xcccccccc) >>> 2)).testBit i =
      x.testBit (i ^^^ 2) := by
  rw [swap_testBit]
  interval_cases i <;> simp [Nat.testBit]

theorem stage1 (x i : Nat) (hi : i < 32) :
    (shlc (x &&& 0x55555555) 1 ||| ((x &&& 0xaaaaaaaa) >>> 1)).testBit i =
      x.testBit (i ^^^ 1) := by
  rw [swap_testBit]
  interval_cases i <;> simp [Nat.testBit]

theorem xor_lt32 (i s : Nat) (hi : i < 32) (hs : s < 32) : i ^^^ s < 32 :=
  Nat.xor_lt_two_pow (n := 5) hi hs

theorem shlc_lt (a s : Nat) : shlc a s < 2 ^ 32 := Nat.mod_lt _ (by norm_num)

namespace GenDiag0m2

theorem vdc_testBit {w : Nat} (hw : w < 2 ^ 32) (i : Nat) (hi : i < 32) :
    (vdc w).testBit i = w.testBit (31 - i) := by
  have h1 := xor_lt32 i 1 hi (by norm_num)
  have h2 := xor_lt32 _ 2 h1 (by norm_num)
  have h4 := xor_lt32 _ 4 h2 (by norm_num)
  have h8 := xor_lt32 _ 8 h4 (by norm_num)
  have hidx : i ^^^ 1 ^^^ 2 ^^^ 4 ^^^ 8 ^^^ 16 = 31 - i := by
    interval_cases i <;> rfl
  unfold vdc
  dsimp only
  rw [stage1 _ i hi, stage2 _ _ h1, stage4 _ _ h2, stage8 _ _ h4, stage16 hw _ h8, hidx]

theorem vdc_lt (w : Nat) : vdc w < 2 ^ 32 := by
  unfold vdc
  dsimp only
  refine Nat.or_lt_two_pow (shlc_lt _ _) ?_
  rw [Nat.shiftRight_eq_div_pow]
  refine Nat.lt_of_le_of_lt (Nat.div_le_self _ _) ?_
  exact Nat.and_lt_two_pow _ (by norm_num)

/-- C11: `vdc` reverses the 32 bits of a word: for every word `w` below `2^32` and
every position `p` from 0 to 31, bit `31 - p` of `vdc(w)` is bit `p` of `w`; the
result is again a 32-bit word. -/
theorem vdc_bit_reversal (w p : Nat) (hw : w < 2 ^ 32) (hp : p ≤ 31) :
    (vdc w).testBit (31 - p) = w.testBit p ∧ vdc w < 2 ^ 32 := by
  refine ⟨?_, vdc_lt w⟩
  rw [vdc_testBit hw (31 - p) (by omega)]
  congr 1
  omega

theorem vdc_bit_reversal_witness :
    0x12345678 < 2 ^ 32 ∧ 3 ≤ 31 ∧
    ((vdc 0x12345678).testBit (31 - 3) = Nat.testBit 0x12345678 3 ∧
      vdc 0x12345678 < 2 ^ 32) :=
  ⟨by decide, by decide, vdc_bit_reversal 0x12345678 3 (by decide) (by decide)⟩

/-- C18: `vdc` is an involution on 32-bit words: `vdc(vdc(w)) = w` for every word `w`
below `2^32`; so `vdc` is one-to-one on the 32-bit words and every 32-bit word is a value
of `vdc`. -/
theorem vdc_involution (w : Nat) (hw : w < 2 ^ 32) :
    vdc (vdc w) = w ∧
    (∀ v, v < 2 ^ 32 → vdc v = vdc w → v = w) ∧
    ∃ v, v < 2 ^ 32 ∧ vdc v = w := by
  have inv : ∀ u, u < 2 ^ 32 → vdc (vdc u) = u := by
    intro u hu
    apply Nat.eq_of_testBit_eq
    intro i
    by_cases hi : i < 32
    · rw [vdc_testBit (vdc_lt u) i hi, vdc_testBit hu (31 - i) (by omega)]
      congr 1
      omega
    · rw [high_bit_false (vdc_lt _) (Nat.le_of_not_lt hi),
        high_bit_false hu (Nat.le_of_not_lt hi)]
  refine ⟨inv w hw, ?_, vdc w, vdc_lt w, inv w hw⟩
  intro v hv h
  rw [← inv v hv, h, inv w hw]

theorem vdc_involution_witness :
    0xdeadbeef < 2 ^ 32 ∧
    (vdc (vdc 0xdeadbeef) = 0xdeadbeef ∧
      (∀ v, v < 2 ^ 32 → vdc v = vdc 0xdeadbeef → v = 0xdeadbeef) ∧
      ∃ v, v < 2 ^ 32 ∧ vdc v = 0xdeadbeef) :=
  ⟨by decide, vdc_involution 0xdeadbeef (by decide)⟩

end GenDiag0m2

/-! ## Bit reversal of a given width -/

theorem brev_lt (b k : Nat) : brev b k < 2 ^ b := by
  induction b generalizing k with
  | zero => simp [brev]
  | succ b ih =>
    have h1 := ih (k / 2)
    have h2 : k % 2 * 2 ^ b ≤ 1 * 2 ^ b := Nat.mul_le_mul_right _ (by omega)
    simp only [brev, pow_succ]
    omega

theorem brev_zero (b : Nat) : brev b 0 = 0 := by
  induction b with
  | zero => rfl
  | succ b ih => simp [brev, ih]

theorem brev_split (a b k : Nat) :
    brev (a + b) k = brev a (k % 2 ^ a) * 2 ^ b + brev b (k / 2 ^ a) := by
  induction a generalizing k with
  | zero => simp [brev]
  | succ a ih =>
    have e : a + 1 + b = (a + b) + 1 := by omega
    have h1 : k % 2 ^ (a + 1) % 2 = k % 2 := by
      rw [pow_succ, Nat.mul_comm]
      exact Nat.mod_mul_right_mod k 2 (2 ^ a)
    have h2 : k % 2 ^ (a + 1) / 2 = k / 2 % 2 ^ a := by
      rw [pow_succ, Nat.mul_comm]
      exact Nat.mod_mul_right_div_self k 2 (2 ^ a)
    have h3 : k / 2 / 2 ^ a = k / 2 ^ (a + 1) := by
      rw [Nat.div_div_eq_div_mul, pow_succ, Nat.mul_comm]
    rw [e]
    simp only [brev]
    rw [ih, h1, h2, h3, pow_add]
    ring

theorem brev_mod (a k : Nat) : brev a (k % 2 ^ a) = brev a k := by
  have h := brev_split a 0 k
  simp [brev] at h
  exact h.symm

theorem brev_of_lt {a k : Nat} (b : Nat) (hk : k < 2 ^ a) : brev (a + b) k = brev a k * 2 ^ b := by
  rw [brev_split, Nat.mod_eq_of_lt hk, Nat.div_eq_of_lt hk, brev_zero, Nat.add_zero]

theorem brev_inj {b k k' : Nat} (hk : k < 2 ^ b) (hk' : k' < 2 ^ b)
    (h : brev b k = brev b k') : k = k' := by
  induction b generalizing k k' with
  | zero =>
    simp at hk hk'
    omega
  | succ b ih =>
    simp only [brev] at h
    have h1 := brev_lt b (k / 2)
    have h2 := brev_lt b (k' / 2)
    rw [pow_succ] at hk hk'
    have hd : k / 2 < 2 ^ b := by omega
    have hd' : k' / 2 < 2 ^ b := by omega
    have hA : 0 < 2 ^ b := Nat.pos_pow_of_pos b (by norm_num)
    have hc : (brev b (k / 2) + k % 2 * 2 ^ b) / 2 ^ b = k % 2 := by
      rw [Nat.add_mul_div_right _ _ hA, Nat.div_eq_of_lt h1, Nat.zero_add]
    have hc' : (brev b (k' / 2) + k' % 2 * 2 ^ b) / 2 ^ b = k' % 2 := by
      rw [Nat.add_mul_div_right _ _ hA, Nat.div_eq_of_lt h2, Nat.zero_add]
    have e1 : k % 2 = k' % 2 := by
      rw [← hc, ← hc', Nat.add_comm, h, Nat.add_comm]
    rw [e1] at h
    have e2 := ih hd hd' (Nat.add_left_cancel h)
    omega

theorem brev_testBit (b k p : Nat) :
    (brev b k).testBit p = (decide (p < b) && k.testBit (b - 1 - p)) := by
  induction b generalizing k p with
  | zero => simp [brev]
  | succ b ih =>
    simp only [brev]
    rw [Nat.mul_comm, Nat.testBit_mul_pow_two_add _ (brev_lt b (k / 2))]
    by_cases hp : p < b
    · have e : b + 1 - 1 - p = (b - 1 - p) + 1 := by omega
      rw [if_pos hp, ih, e, Nat.testBit_succ]
      simp [hp, Nat.lt_succ_of_lt hp]
    · rw [if_neg hp]
      rcases Nat.eq_or_lt_of_le (Nat.le_of_not_lt hp) with h | h
      · subst h
        simp [Nat.testBit_zero]
      · have e : p - b = (p - b - 1) + 1 := by omega
        have hlt : ¬ (p < b + 1) := by omega
        rw [e, Nat.testBit_succ]
        have : k % 2 / 2 = 0 := by omega
        simp [this, hlt]

theorem sub32_width {m : Nat} (hm : m ≤ 32) : sub32 32 m = 32 - m := by
  unfold sub32
  omega

namespace GenDiag0m2

/-- The table term `vdc(k) >> (32 - m)` is the `m`-bit reversal of `k`. -/
theorem vdc_shr_eq_brev (t : Target) {m k : Nat} (hm1 : 1 ≤ m) (hm : m ≤ 31)
    (hk : k < 2 ^ 32) : shr t (vdc k) (sub32 32 m) = brev m k := by
  have hs : sub32 32 m = 32 - m := sub32_width (by omega)
  have hlt : 32 - m < 32 := by omega
  rw [hs]
  unfold shr
  rw [if_pos hlt]
  apply Nat.eq_of_testBit_eq
  intro q
  rw [Nat.testBit_shiftRight, brev_testBit]
  by_cases hq : q < m
  · rw [vdc_testBit hk _ (by omega)]
    have e : 31 - (32 - m + q) = m - 1 - q := by omega
    simp [hq, e]
  · rw [high_bit_false (vdc_lt k) (by omega)]
    simp [hq]

/-- C16: for `m` from 1 to 31 and a diagonal index `k < 2^floor(m/2)`, the table term
`vdc(k) >> (32 - m)` is the `m`-bit reversal of `k`: its bit `m - 1 - p` is bit `p` of
`k` for every `p < m`; it is below `2^m` and a multiple of `2^m2 = 2^ceil(m/2)`. -/
theorem table_term_reversal (t : Target) (m k : Nat) (hm1 : 1 ≤ m) (hm : m ≤ 31)
    (hk : k < 2 ^ (m / 2)) :
    (∀ p, p < m → (shr t (vdc k) (sub32 32 m)).testBit (m - 1 - p) = k.testBit p) ∧
    shr t (vdc k) (sub32 32 m) = brev m k ∧
    shr t (vdc k) (sub32 32 m) < 2 ^ m ∧
    2 ^ (new t m).m2 ∣ shr t (vdc k) (sub32 32 m) := by
  have hk32 : k < 2 ^ 32 :=
    Nat.lt_trans hk (Nat.pow_lt_pow_right (by norm_num) (by omega))
  have hV := vdc_shr_eq_brev t hm1 hm hk32
  have hsplit : m = m / 2 + (m + 1) / 2 := by omega
  refine ⟨?_, hV, ?_, ?_⟩
  · intro p hp
    rw [hV, brev_testBit]
    have e : m - 1 - (m - 1 - p) = p := by omega
    have hlt : m - 1 - p < m := by omega
    simp [hlt, e]
  · rw [hV]
    exact brev_lt m k
  · rw [hV, new_m2 t hm]
    have h := brev_of_lt ((m + 1) / 2) hk
    rw [← hsplit] at h
    rw [h]
    exact Nat.dvd_mul_left _ _

theorem table_term_reversal_witness :
    1 ≤ 5 ∧ 5 ≤ 31 ∧ 3 < 2 ^ (5 / 2) ∧
    ((∀ p, p < 5 →
        (shr maskCount (vdc 3) (sub32 32 5)).testBit (5 - 1 - p) = Nat.testBit 3 p) ∧
      shr maskCount (vdc 3) (sub32 32 5) = brev 5 3 ∧
      shr maskCount (vdc 3) (sub32 32 5) < 2 ^ 5 ∧
      2 ^ (new maskCount 5).m2 ∣ shr maskCount (vdc 3) (sub32 32 5)) :=
  ⟨by decide, by decide, by decide,
    table_term_reversal maskCount 5 3 (by decide) (by decide) (by decide)⟩

end GenDiag0m2

/-! ## Masks, the rotation of the index, and the shift counts -/

theorem rot_left_inv {A B i : Nat} (hi : i < A * B) :
    (i / A + i % A * B) % B * A + (i / A + i % A * B) / B = i := by
  have hq : i / A < B := Nat.div_lt_of_lt_mul hi
  have hB : 0 < B := Nat.lt_of_le_of_lt (Nat.zero_le _) hq
  rw [Nat.add_mul_mod_self_right, Nat.mod_eq_of_lt hq, Nat.add_mul_div_right _ _ hB,
    Nat.div_eq_of_lt hq, Nat.zero_add, Nat.mul_comm]
  exact Nat.div_add_mod i A

theorem rot_right_inv {A B y : Nat} (hy : y < B * A) :
    (y % B * A + y / B) / A + (y % B * A + y / B) % A * B = y := by
  have hq : y / B < A := Nat.div_lt_of_lt_mul hy
  have hA : 0 < A := Nat.lt_of_le_of_lt (Nat.zero_le _) hq
  rw [Nat.add_comm (y % B * A), Nat.add_mul_div_right _ _ hA, Nat.add_mul_mod_self_right,
    Nat.div_eq_of_lt hq, Nat.mod_eq_of_lt hq, Nat.zero_add]
  exact Nat.mod_add_div' y B

namespace GenDiag0m2

theorem new_dx_even (t : Target) {m : Nat} (he : m % 2 = 0) :
    (new t m).dx = sub32 (m >>> 1) 2 := by
  have h : ¬ (m &&& 1 ≠ 0) := by rw [Nat.and_one_is_mod]; omega
  unfold new
  dsimp only
  rw [if_neg h]

theorem new_dx_odd (t : Target) {m : Nat} (ho : m % 2 = 1) : (new t m).dx = m >>> 1 := by
  have h : m &&& 1 ≠ 0 := by rw [Nat.and_one_is_mod]; omega
  unfold new
  dsimp only
  rw [if_pos h]

/-- C17: for `m ≤ 31` the mask `~-(1 << m2)` is `2^m2 - 1` and the mask `~-(1 << m)` is
`n - 1`; `get` splits every index as `i = k * 2^m2 + j` with `k = i >> m2` and
`j = i & mask < 2^m2`; the bitwise AND with `n - 1` (written `n - 1` in `get`,
`~-(1 << m)` in `getShiftedTiling`) is the reduction modulo `n`. -/
theorem masks_exact (t : Target) (m : Nat) (hm : m ≤ 31) :
    (new t m).mask = 2 ^ (new t m).m2 - 1 ∧
    not32 (neg32 (shl t 1 (new t m).m)) = (new t m).n - 1 ∧
    (∀ i, i = shr t i (new t m).m2 * 2 ^ (new t m).m2 + (i &&& (new t m).mask) ∧
      (i &&& (new t m).mask) < 2 ^ (new t m).m2) ∧
    (∀ v, v &&& sub32 (new t m).n 1 = v % (new t m).n) ∧
    ∀ v, v &&& not32 (neg32 (shl t 1 (new t m).m)) = v % (new t m).n := by
  have hn := new_n t hm
  have hm2 := new_m2 t hm
  have hmask := new_mask t hm
  have hpos : 0 < 2 ^ ((m + 1) / 2) := Nat.pos_pow_of_pos _ (by norm_num)
  refine ⟨by rw [hmask, hm2], ?_, ?_, ?_, ?_⟩
  · rw [new_m, shl_one t hm, not32_neg32_two_pow hm, hn]
  · intro i
    rw [get_diag t hm, get_pos t hm, hm2]
    exact ⟨(Nat.div_add_mod' i _).symm, Nat.mod_lt _ hpos⟩
  · intro v
    rw [hn, sub32_two_pow_one hm, Nat.and_pow_two_sub_one_eq_mod]
  · intro v
    rw [new_m, shl_one t hm, not32_neg32_two_pow hm, hn, Nat.and_pow_two_sub_one_eq_mod]

theorem masks_exact_witness :
    9 ≤ 31 ∧ 300 = shr zeroFill 300 (new zeroFill 9).m2 * 2 ^ (new zeroFill 9).m2 +
      (300 &&& (new zeroFill 9).mask) :=
  ⟨by decide, ((masks_exact zeroFill 9 (by decide)).2.2.1 300).1⟩

/-- C14: for `m ≤ 31` the `y` of `get` is a rotation of the bits of `i` alone:
`y(i) = (i >> m2) + ((i mod 2^m2) << floor(m/2))` for `i < n`; `y` maps `[0, n)` into
`[0, n)`, and `y -> ((y mod 2^floor(m/2)) << m2) + (y >> floor(m/2))` is its inverse on
both sides. -/
theorem y_rotation (t : Target) (m : Nat) (hm : m ≤ 31) :
    (∀ i, i < (new t m).n →
      (get t (new t m) i).2 =
        (i >>> (new t m).m2) + ((i % 2 ^ (new t m).m2) <<< (m / 2)) ∧
      (get t (new t m) i).2 < (new t m).n ∧
      (((get t (new t m) i).2 % 2 ^ (m / 2)) <<< (new t m).m2) +
        ((get t (new t m) i).2 >>> (m / 2)) = i) ∧
    ∀ y, y < (new t m).n →
      ((y % 2 ^ (m / 2)) <<< (new t m).m2) + (y >>> (m / 2)) < (new t m).n ∧
      (get t (new t m) (((y % 2 ^ (m / 2)) <<< (new t m).m2) + (y >>> (m / 2)))).2 = y := by
  have hn := new_n t hm
  have hm2 := new_m2 t hm
  have hs := half_split m
  have hpos : 0 < 2 ^ ((m + 1) / 2) := Nat.pos_pow_of_pos _ (by norm_num)
  rw [hn, hm2]
  simp only [Nat.shiftLeft_eq, Nat.shiftRight_eq_div_pow]
  constructor
  · intro i hi
    have hi' : i < 2 ^ ((m + 1) / 2) * 2 ^ (m / 2) := by rw [← hs]; exact hi
    rw [get_snd t hm hi]
    exact ⟨rfl, by rw [hs]; exact rot_lt hi', rot_left_inv hi'⟩
  · intro y hy
    have hy' : y < 2 ^ (m / 2) * 2 ^ ((m + 1) / 2) := by rw [Nat.mul_comm, ← hs]; exact hy
    have hlt : y % 2 ^ (m / 2) * 2 ^ ((m + 1) / 2) + y / 2 ^ (m / 2) < 2 ^ m := by
      have h := rot_lt hy'
      rw [Nat.mul_comm (2 ^ (m / 2)), ← hs] at h
      omega
    refine ⟨hlt, ?_⟩
    rw [get_snd t hm hlt]
    exact rot_right_inv hy'

theorem y_rotation_witness :
    7 ≤ 31 ∧ 100 < (new maskCount 7).n ∧
    ((100 % 2 ^ (7 / 2)) <<< (new maskCount 7).m2) + (100 >>> (7 / 2)) <
      (new maskCount 7).n ∧
    (get maskCount (new maskCount 7)
      (((100 % 2 ^ (7 / 2)) <<< (new maskCount 7).m2) + (100 >>> (7 / 2)))).2 = 100 :=
  ⟨by decide, by decide, (y_rotation maskCount 7 (by decide)).2 100 (by decide)⟩

end GenDiag0m2

namespace GenDiag0m2

/-- C15: for `m` from 0 to 31, the shift count `dx` is `32` or more exactly when `m` is
0 or 2, and this comes from the subtraction `(m >> 1) - 2` of the even branch, which
wraps around exactly for these two `m`; for every other `m` from 1 to 31 the shift
counts `m`, `m2`, `m >> 1`, `32 - m`, `dx` and `dy` are all below `32`. -/
theorem shift_counts (t : Target) (m : Nat) (hm : m ≤ 31) :
    (32 ≤ (new t m).dx ↔ m = 0 ∨ m = 2) ∧
    (m % 2 = 0 → (new t m).dx = sub32 (m >>> 1) 2 ∧
      (m >>> 1 < 2 ↔ m = 0 ∨ m = 2) ∧ (32 ≤ sub32 (m >>> 1) 2 ↔ m = 0 ∨ m = 2)) ∧
    (1 ≤ m → m ≠ 2 →
      m < 32 ∧ (new t m).m2 < 32 ∧ m >>> 1 < 32 ∧ sub32 32 m < 32 ∧
      (new t m).dx < 32 ∧ (new t m).dy < 32) := by
  have hm2 := new_m2 t hm
  have hdy := new_dy t m
  have hsh : m >>> 1 = m / 2 := by rw [Nat.shiftRight_eq_div_pow, Nat.pow_one]
  have hw : sub32 32 m = 32 - m := sub32_width (by omega)
  have hsub : sub32 (m / 2) 2 = if m / 2 < 2 then m / 2 + 2 ^ 32 - 2 else m / 2 - 2 := by
    unfold sub32
    split <;> omega
  rcases Nat.mod_two_eq_zero_or_one m with he | ho
  · have hdx := new_dx_even t he
    rw [hsh] at hdx
    rw [hdx, hm2, hdy, hw, hsh, hsub]
    refine ⟨?_, fun _ => ⟨rfl, ?_, ?_⟩, fun h1 h2 => ?_⟩
    · split <;> omega
    · omega
    · split <;> omega
    · split <;> omega
  · have hdx := new_dx_odd t ho
    rw [hsh] at hdx
    rw [hdx, hm2, hdy, hw, hsh]
    refine ⟨by omega, fun he => by omega, fun h1 h2 => by omega⟩

theorem shift_counts_witness :
    6 ≤ 31 ∧ 6 % 2 = 0 ∧ 1 ≤ 6 ∧ 6 ≠ 2 ∧
    (new maskCount 6).dx = sub32 (6 >>> 1) 2 ∧ (new maskCount 6).dx < 32 :=
  ⟨by decide, by decide, by decide, by decide,
    ((shift_counts maskCount 6 (by decide)).2.1 (by decide)).1,
    ((shift_counts maskCount 6 (by decide)).2.2 (by decide) (by decide)).2.2.2.2.1⟩

/-- C12: for even `m`, `i < n = 2^m` and tile coordinates with `(px+1) * n` and
`(py+4+1) * n` below `2^32`, `getShiftedTiling(px, py + 4, i)` has the `x` of
`getShiftedTiling(px, py, i)` and a `y` larger by exactly `4 * n`. -/
theorem tiling_period_four (t : Target) (m px py i : Nat) (he : m % 2 = 0)
    (hi : i < 2 ^ m) (hpx : (px + 1) * 2 ^ m < 2 ^ 32)
    (hpy : (py + 4 + 1) * 2 ^ m < 2 ^ 32) :
    ∃ x y, getShiftedTiling t (new t m) px py i = some (x, y) ∧
      getShiftedTiling t (new t m) px (py + 4) i = some (x, y + 4 * (new t m).n) := by
  have hm : m ≤ 31 := exp_le_of_mul_lt hpx
  have hpy0 : (py + 1) * 2 ^ m < 2 ^ 32 :=
    Nat.lt_of_le_of_lt (Nat.mul_le_mul_right _ (by omega)) hpy
  have hrow : (py + 4) &&& 3 = py &&& 3 := by
    have h3 : (3 : Nat) = 2 ^ 2 - 1 := by norm_num
    rw [h3, Nat.and_pow_two_sub_one_eq_mod, Nat.and_pow_two_sub_one_eq_mod]
    omega
  refine ⟨_, _, getShiftedTiling_even t he hi hpx hpy0, ?_⟩
  rw [getShiftedTiling_even t he hi hpx hpy, hrow, new_n t hm, Nat.add_mul, Nat.add_assoc]

theorem tiling_period_four_witness :
    4 % 2 = 0 ∧ 11 < 2 ^ 4 ∧ (2 + 1) * 2 ^ 4 < 2 ^ 32 ∧ (3 + 4 + 1) * 2 ^ 4 < 2 ^ 32 ∧
    ∃ x y, getShiftedTiling maskCount (new maskCount 4) 2 3 11 = some (x, y) ∧
      getShiftedTiling maskCount (new maskCount 4) 2 (3 + 4) 11 =
        some (x, y + 4 * (new maskCount 4).n) :=
  ⟨by decide, by decide, by decide, by decide,
    tiling_period_four maskCount 4 2 3 11 (by decide) (by decide) (by decide) (by decide)⟩

end GenDiag0m2

/-!
## One point per cell: the arithmetic core

Write `h = floor(m/2)`.  With `y = k + j * 2^h` the first coordinate is a function of
`y` alone, `x = xForm ... y`: the `h`-bit reversal of `k = y mod 2^h`, moved to the top
half, plus `y` (odd `m`) or plus `(y + 2^h) / 4` (even `m`).  Two points in the same
cell of shape `a` agree in `y >> a` and in `x >> (m - a)`.

* `a ≤ h` (`cell_low`, `form_low`): the bits of `y` left open are its low `a` bits, and
  the top `a` bits of `x` are their reversal plus a term fixed by `y >> a`.
* `a > h` (`cell_high`, `form_high`): the top `a` bits of `x`, read modulo increasing
  powers of two, give back first the middle bits of `k`, then the reversal of its low
  bits together with the open bits of `j`.
* `a = h + 1` for even `m` (`cell_mid`, `form_mid`) is the one shape where the division
  by 4 reaches past `k`.
-/

theorem floor_drop {P M Q : Nat} (y : Nat) (hP : 0 < P) (hM : P ∣ M) (hQ : P ∣ Q) :
    (M + y) / Q = (M + y / P * P) / Q := by
  obtain ⟨M', rfl⟩ := hM
  obtain ⟨Q', rfl⟩ := hQ
  rw [← Nat.div_div_eq_div_mul, ← Nat.div_div_eq_div_mul, Nat.mul_add_div hP,
    Nat.mul_add_div hP, Nat.mul_div_cancel _ hP]

/-- Shape `a ≤ h`: the top part of `x` is `β` plus a term that only depends on `y / P`. -/
theorem cell_low {P E D K β β' y y' : Nat} (hP : 0 < P) (hE : 0 < E) (hD : 0 < D)
    (hPK : P ∣ K) (hPE : P ∣ D * E) (hβ : β < P) (hβ' : β' < P) (hy : y / P = y' / P)
    (hx : (β * E * D + K + y) / D % (E * P) / E = (β' * E * D + K + y') / D % (E * P) / E) :
    β = β' := by
  have key : ∀ b z, (b * E * D + K + z) / D % (E * P) / E =
      (b + (K + z / P * P) / (D * E)) % P := by
    intro b z
    have e : b * E * D + K + z = (K + z) + b * (D * E) := by ring
    rw [Nat.mod_mul_right_div_self, Nat.div_div_eq_div_mul, e,
      Nat.add_mul_div_right _ _ (Nat.mul_pos hD hE), floor_drop z hP hPK hPE, Nat.add_comm]
  rw [key, key, hy] at hx
  exact Nat.ModEq.eq_of_lt_of_lt (Nat.ModEq.add_right_cancel' _ hx) hβ hβ'

/-- Shape `a > h`, digits of `y`: `rl` from the low `f` bits, `κ` the next `u` bits,
`jl` the next `v` bits. -/
theorem cell_high {F U V rl rl' κ κ' jl jl' C : Nat} (s : Nat → Nat) (hUV : U ∣ V)
    (hUC : U ∣ C) (hrl : rl < F) (hrl' : rl' < F) (hκ : κ < U) (hκ' : κ' < U)
    (hjl : jl < V) (hjl' : jl' < V)
    (h : ((rl * U + s κ) * V + κ + jl * U + C) % (F * U * V) =
      ((rl' * U + s κ') * V + κ' + jl' * U + C) % (F * U * V)) :
    rl = rl' ∧ κ = κ' ∧ jl = jl' := by
  have hU : 0 < U := Nat.lt_of_le_of_lt (Nat.zero_le _) hκ
  obtain ⟨V', hV'⟩ := hUV
  obtain ⟨C', hC'⟩ := hUC
  have hmodU : ∀ r k j, ((r * U + s k) * V + k + j * U + C) % U = k % U := by
    intro r k j
    have e : (r * U + s k) * V + k + j * U + C = k + U * ((r * U + s k) * V' + j + C') := by
      rw [hV', hC']; ring
    rw [e, Nat.add_mul_mod_self_left]
  have hdvd : U ∣ F * U * V := Dvd.intro_left _ (by ring : (F * V) * U = F * U * V)
  have h1 : κ = κ' := by
    have := Nat.ModEq.of_dvd hdvd h
    unfold Nat.ModEq at this
    rw [hmodU, hmodU, Nat.mod_eq_of_lt hκ, Nat.mod_eq_of_lt hκ'] at this
    exact this
  subst h1
  have e : ∀ r j, (r * U + s κ) * V + κ + j * U + C =
      (j + r * V) * U + (s κ * V + κ + C) := by
    intro r j; ring
  rw [e, e] at h
  have h2 : Nat.ModEq (F * U * V) ((jl + rl * V) * U) ((jl' + rl' * V) * U) :=
    Nat.ModEq.add_right_cancel' _ h
  have hb : ∀ r j, r < F → j < V → (j + r * V) * U < F * U * V := by
    intro r j hr hj
    have h3 : j + r * V < F * V := by
      have : (r + 1) * V ≤ F * V := Nat.mul_le_mul_right V hr
      rw [Nat.add_mul, Nat.one_mul] at this
      omega
    calc (j + r * V) * U < F * V * U := Nat.mul_lt_mul_of_pos_right h3 hU
      _ = F * U * V := by ring
  have h4 := Nat.ModEq.eq_of_lt_of_lt h2 (hb rl jl hrl hjl) (hb rl' jl' hrl' hjl')
  have h5 := Nat.eq_of_mul_eq_mul_right hU h4
  have h6 := tile_split hjl hjl' h5
  exact ⟨h6.1, rfl, h6.2⟩

/-- Shape `a = h + 1` for even `m`. -/
theorem cell_mid {H R R' jl jl' Q : Nat} (hR : R < H) (hR' : R' < H) (hjl : jl < 2)
    (hjl' : jl' < 2) (h : (2 * R + jl + Q) % (2 * H) = (2 * R' + jl' + Q) % (2 * H)) :
    R = R' ∧ jl = jl' := by
  have h2 : Nat.ModEq (2 * H) (2 * R + jl) (2 * R' + jl') := Nat.ModEq.add_right_cancel' _ h
  have h3 := Nat.ModEq.eq_of_lt_of_lt h2 (by omega) (by omega)
  omega

theorem two_pow_pos_nat (e : Nat) : 0 < 2 ^ e := Nat.pos_pow_of_pos e (by norm_num)

theorem brev_low_split (a b y : Nat) :
    brev (a + b) (y % 2 ^ (a + b)) = brev a (y % 2 ^ a) * 2 ^ b + brev b (y / 2 ^ a % 2 ^ b) := by
  rw [brev_split, Nat.mod_mod_of_dvd _ (pow_dvd_pow 2 (Nat.le_add_right a b)), pow_add,
    Nat.mod_mul_right_div_self]

theorem eq_of_div_mod {P y y' : Nat} (hd : y / P = y' / P) (hm : y % P = y' % P) : y = y' := by
  rw [← Nat.div_add_mod y P, ← Nat.div_add_mod y' P, hd, hm]

theorem form_low (a b w D δ y y' : Nat) (hD : 0 < D) (hw : 0 < w) (hPw : 2 ^ a ∣ w)
    (hPδ : 2 ^ a ∣ δ) (hq : y / 2 ^ a = y' / 2 ^ a)
    (hx : xForm (a + b) w D δ (2 ^ b * w * 2 ^ a) y / (2 ^ b * w) =
      xForm (a + b) w D δ (2 ^ b * w * 2 ^ a) y' / (2 ^ b * w)) : y = y' := by
  unfold xForm at hx
  rw [brev_low_split, brev_low_split, hq] at hx
  have e : ∀ β S z, (β * 2 ^ b + S) * w * D + δ + z =
      β * (2 ^ b * w) * D + (S * w * D + δ) + z := by
    intro β S z; ring
  rw [e, e] at hx
  have hK : 2 ^ a ∣ brev b (y' / 2 ^ a % 2 ^ b) * w * D + δ :=
    Dvd.dvd.add (Dvd.dvd.mul_right (Dvd.dvd.mul_left hPw _) _) hPδ
  have hE : 2 ^ a ∣ D * (2 ^ b * w) :=
    Dvd.dvd.mul_left (Dvd.dvd.mul_left hPw _) _
  have hβ := cell_low (two_pow_pos_nat a) (Nat.mul_pos (two_pow_pos_nat b) hw) hD hK hE
    (brev_lt a _) (brev_lt a _) hq hx
  have hmod := brev_inj (Nat.mod_lt _ (two_pow_pos_nat a)) (Nat.mod_lt _ (two_pow_pos_nat a)) hβ
  exact eq_of_div_mod hq hmod

theorem div_digits (U V q : Nat) : q = q % U + (q / U % V) * U + U * V * (q / U / V) := by
  have d1 := Nat.mod_add_div q U
  have d2 := Nat.mod_add_div (q / U) V
  calc q = q % U + U * (q / U) := d1.symm
    _ = q % U + U * (q / U % V + V * (q / U / V)) := by rw [d2]
    _ = _ := by ring

theorem form_high (f u v ε y y' : Nat) (huv : u ≤ v)
    (hq : y / 2 ^ f / 2 ^ u / 2 ^ v = y' / 2 ^ f / 2 ^ u / 2 ^ v)
    (hx : (brev (f + u) (y % 2 ^ (f + u)) * (2 ^ v * 2 ^ f) + ε * (2 ^ u * 2 ^ f) + y) / 2 ^ f
        % (2 ^ f * 2 ^ u * 2 ^ v) =
      (brev (f + u) (y' % 2 ^ (f + u)) * (2 ^ v * 2 ^ f) + ε * (2 ^ u * 2 ^ f) + y') / 2 ^ f
        % (2 ^ f * 2 ^ u * 2 ^ v)) : y = y' := by
  have hZ : ∀ z, (brev (f + u) (z % 2 ^ (f + u)) * (2 ^ v * 2 ^ f) + ε * (2 ^ u * 2 ^ f) + z)
      / 2 ^ f =
      (brev f (z % 2 ^ f) * 2 ^ u + brev u (z / 2 ^ f % 2 ^ u)) * 2 ^ v + z / 2 ^ f % 2 ^ u
        + (z / 2 ^ f / 2 ^ u % 2 ^ v) * 2 ^ u
        + (ε * 2 ^ u + 2 ^ u * 2 ^ v * (z / 2 ^ f / 2 ^ u / 2 ^ v)) := by
    intro z
    have e : brev (f + u) (z % 2 ^ (f + u)) * (2 ^ v * 2 ^ f) + ε * (2 ^ u * 2 ^ f) + z =
        z + (brev (f + u) (z % 2 ^ (f + u)) * 2 ^ v + ε * 2 ^ u) * 2 ^ f := by ring
    have d := div_digits (2 ^ u) (2 ^ v) (z / 2 ^ f)
    rw [e, Nat.add_mul_div_right _ _ (two_pow_pos_nat f), brev_low_split]
    linarith
  rw [hZ, hZ, hq] at hx
  have hUC : 2 ^ u ∣ ε * 2 ^ u + 2 ^ u * 2 ^ v * (y' / 2 ^ f / 2 ^ u / 2 ^ v) :=
    Dvd.dvd.add (Dvd.intro_left _ rfl) (Dvd.dvd.mul_right (Dvd.dvd.mul_right (dvd_refl _) _) _)
  have hd := cell_high (fun κ => brev u κ) (pow_dvd_pow 2 huv) hUC (brev_lt f _) (brev_lt f _)
    (Nat.mod_lt _ (two_pow_pos_nat u)) (Nat.mod_lt _ (two_pow_pos_nat u))
    (Nat.mod_lt _ (two_pow_pos_nat v)) (Nat.mod_lt _ (two_pow_pos_nat v)) hx
  have hmod := brev_inj (Nat.mod_lt _ (two_pow_pos_nat f)) (Nat.mod_lt _ (two_pow_pos_nat f)) hd.1
  have hdiv : y / 2 ^ f = y' / 2 ^ f := by
    rw [div_digits (2 ^ u) (2 ^ v) (y / 2 ^ f), div_digits (2 ^ u) (2 ^ v) (y' / 2 ^ f),
      hd.2.1, hd.2.2, hq]
  exact eq_of_div_mod hdiv hmod

theorem form_mid (h y y' : Nat) (hq : y / 2 ^ h / 2 = y' / 2 ^ h / 2)
    (hx : (brev h (y % 2 ^ h) * (2 ^ h * 4) + 2 ^ h + y) / (2 * 2 ^ h) % (2 * 2 ^ h) =
      (brev h (y' % 2 ^ h) * (2 ^ h * 4) + 2 ^ h + y') / (2 * 2 ^ h) % (2 * 2 ^ h)) :
    y = y' := by
  have hH := two_pow_pos_nat h
  have hZ : ∀ z, (brev h (z % 2 ^ h) * (2 ^ h * 4) + 2 ^ h + z) / (2 * 2 ^ h) =
      2 * brev h (z % 2 ^ h) + z / 2 ^ h % 2 + z / 2 ^ h / 2 := by
    intro z
    have e : brev h (z % 2 ^ h) * (2 ^ h * 4) + 2 ^ h + z =
        (z % 2 ^ h + (z / 2 ^ h + 1) * 2 ^ h) + (2 * brev h (z % 2 ^ h)) * (2 * 2 ^ h) := by
      have d := Nat.mod_add_div z (2 ^ h)
      linarith
    have e2 : (z % 2 ^ h + (z / 2 ^ h + 1) * 2 ^ h) / (2 * 2 ^ h) =
        z / 2 ^ h % 2 + z / 2 ^ h / 2 := by
      rw [Nat.mul_comm 2, ← Nat.div_div_eq_div_mul, Nat.add_mul_div_right _ _ hH,
        Nat.div_eq_of_lt (Nat.mod_lt _ hH)]
      omega
    rw [e, Nat.add_mul_div_right _ _ (Nat.mul_pos (by norm_num) hH), e2]
    omega
  rw [hZ, hZ, hq] at hx
  have hx' : (2 * brev h (y % 2 ^ h) + y / 2 ^ h % 2 + y' / 2 ^ h / 2) % (2 * 2 ^ h) =
      (2 * brev h (y' % 2 ^ h) + y' / 2 ^ h % 2 + y' / 2 ^ h / 2) % (2 * 2 ^ h) := hx
  have hd := cell_mid (brev_lt h _) (brev_lt h _) (Nat.mod_lt _ (by norm_num))
    (Nat.mod_lt _ (by norm_num)) hx'
  have hmod := brev_inj (Nat.mod_lt _ hH) (Nat.mod_lt _ hH) hd.1
  have hdiv : y / 2 ^ h = y' / 2 ^ h := by
    have := hd.2
    omega
  exact eq_of_div_mod hdiv hmod

theorem odd_cells_inj (h a y y' : Nat) (ha : a ≤ 2 * h + 1) (hq : y / 2 ^ a = y' / 2 ^ a)
    (hx : xForm h (2 ^ (h + 1)) 1 0 (2 ^ (2 * h + 1)) y / 2 ^ (2 * h + 1 - a) =
      xForm h (2 ^ (h + 1)) 1 0 (2 ^ (2 * h + 1)) y' / 2 ^ (2 * h + 1 - a)) : y = y' := by
  rcases Nat.lt_or_ge h a with hlt | hge
  · obtain ⟨u, f, rfl, rfl⟩ : ∃ u f, h = f + u ∧ a = f + 2 * u + 1 :=
      ⟨a - h - 1, 2 * h + 1 - a, by omega, by omega⟩
    have e1 : 2 * (f + u) + 1 - (f + 2 * u + 1) = f := by omega
    have e2 : (2 : Nat) ^ (2 * (f + u) + 1) = 2 ^ f * (2 ^ f * 2 ^ u * 2 ^ (u + 1)) := by
      rw [← pow_add, ← pow_add, ← pow_add]; congr 1; omega
    have e3 : (2 : Nat) ^ (f + u + 1) = 2 ^ (u + 1) * 2 ^ f := by
      rw [← pow_add]; congr 1; omega
    have e4 : (2 : Nat) ^ (f + 2 * u + 1) = 2 ^ f * 2 ^ u * 2 ^ (u + 1) := by
      rw [← pow_add, ← pow_add]; congr 1; omega
    have e5 : ∀ z R, R * (2 ^ (u + 1) * 2 ^ f) * 1 + 0 + z =
        R * (2 ^ (u + 1) * 2 ^ f) + 0 * (2 ^ u * 2 ^ f) + z := by
      intro z R; ring
    unfold xForm at hx
    rw [e1, e2, e3, Nat.div_one, Nat.div_one, Nat.mod_mul_right_div_self,
      Nat.mod_mul_right_div_self, e5, e5] at hx
    rw [e4, ← Nat.div_div_eq_div_mul, ← Nat.div_div_eq_div_mul, ← Nat.div_div_eq_div_mul,
      ← Nat.div_div_eq_div_mul] at hq
    exact form_high f u (u + 1) 0 y y' (Nat.le_succ u) hq hx
  · obtain ⟨b, rfl⟩ : ∃ b, h = a + b := ⟨h - a, by omega⟩
    have e1 : (2 : Nat) ^ (2 * (a + b) + 1 - a) = 2 ^ b * 2 ^ (a + b + 1) := by
      rw [← pow_add]; congr 1; omega
    have e2 : (2 : Nat) ^ (2 * (a + b) + 1) = 2 ^ b * 2 ^ (a + b + 1) * 2 ^ a := by
      rw [← pow_add, ← pow_add]; congr 1; omega
    rw [e1, e2] at hx
    exact form_low a b (2 ^ (a + b + 1)) 1 0 y y' (by norm_num) (two_pow_pos_nat _)
      (pow_dvd_pow 2 (by omega)) (dvd_zero _) hq hx

theorem even_cells_inj (h a y y' : Nat) (hh : 2 ≤ h) (ha : a ≤ 2 * h)
    (hq : y / 2 ^ a = y' / 2 ^ a)
    (hx : xForm h (2 ^ h) 4 (2 ^ h) (2 ^ (2 * h)) y / 2 ^ (2 * h - a) =
      xForm h (2 ^ h) 4 (2 ^ h) (2 ^ (2 * h)) y' / 2 ^ (2 * h - a)) : y = y' := by
  rcases Nat.lt_or_ge h a with hlt | hge
  · rcases Nat.eq_or_lt_of_le (Nat.succ_le_of_lt hlt) with heq | hgt
    · -- a = h + 1
      subst heq
      obtain ⟨g, rfl⟩ : ∃ g, h = g + 1 := ⟨h - 1, by omega⟩
      have e1 : 2 * (g + 1) - (g + 1).succ = g := by omega
      have e2 : (2 : Nat) ^ (2 * (g + 1)) = 2 ^ g * (2 * 2 ^ (g + 1)) := by
        rw [show 2 * (g + 1) = g + (1 + (g + 1)) by omega, pow_add, pow_add, pow_one]
      have e3 : 4 * (2 : Nat) ^ g = 2 * 2 ^ (g + 1) := by rw [pow_succ]; ring
      have e5 : ∀ z R, R * 2 ^ (g + 1) * 4 + 2 ^ (g + 1) + z =
          R * (2 ^ (g + 1) * 4) + 2 ^ (g + 1) + z := by
        intro z R; ring
      have e6 : (2 : Nat) ^ (g + 1).succ = 2 ^ (g + 1) * 2 := by rw [pow_succ]
      unfold xForm at hx
      rw [e1, e2, Nat.mod_mul_right_div_self, Nat.mod_mul_right_div_self,
        Nat.div_div_eq_div_mul, Nat.div_div_eq_div_mul, e3, e5, e5] at hx
      rw [e6, ← Nat.div_div_eq_div_mul, ← Nat.div_div_eq_div_mul] at hq
      exact form_mid (g + 1) y y' hq hx
    · -- a ≥ h + 2
      obtain ⟨u, f, rfl, rfl, hf⟩ : ∃ u f, h = f + u ∧ a = f + 2 * u + 2 ∧ 2 ≤ f :=
        ⟨a - h - 2, 2 * h + 2 - a, by omega, by omega, by omega⟩
      obtain ⟨g, rfl⟩ : ∃ g, f = g + 2 := ⟨f - 2, by omega⟩
      have e1 : 2 * (g + 2 + u) - (g + 2 + 2 * u + 2) = g := by omega
      have e2 : (2 : Nat) ^ (2 * (g + 2 + u)) =
          2 ^ g * (2 ^ (g + 2) * 2 ^ u * 2 ^ (u + 2)) := by
        rw [← pow_add, ← pow_add, ← pow_add]; congr 1; omega
      have e3 : 4 * (2 : Nat) ^ g = 2 ^ (g + 2) := by rw [pow_add]; ring
      have e4 : (2 : Nat) ^ (g + 2 + 2 * u + 2) = 2 ^ (g + 2) * 2 ^ u * 2 ^ (u + 2) := by
        rw [← pow_add, ← pow_add]; congr 1; omega
      have e5 : ∀ z R, R * 2 ^ (g + 2 + u) * 4 + 2 ^ (g + 2 + u) + z =
          R * (2 ^ (u + 2) * 2 ^ (g + 2)) + 1 * (2 ^ u * 2 ^ (g + 2)) + z := by
        intro z R
        rw [pow_add 2 (g + 2) u, pow_add 2 u 2]
        ring
      unfold xForm at hx
      rw [e1, e2, Nat.mod_mul_right_div_self, Nat.mod_mul_right_div_self,
        Nat.div_div_eq_div_mul, Nat.div_div_eq_div_mul, e3, e5, e5] at hx
      rw [e4, ← Nat.div_div_eq_div_mul, ← Nat.div_div_eq_div_mul,
        ← Nat.div_div_eq_div_mul, ← Nat.div_div_eq_div_mul] at hq
      exact form_high (g + 2) u (u + 2) 1 y y' (by omega) hq hx
  · obtain ⟨b, rfl⟩ : ∃ b, h = a + b := ⟨h - a, by omega⟩
    have e1 : (2 : Nat) ^ (2 * (a + b) - a) = 2 ^ b * 2 ^ (a + b) := by
      rw [← pow_add]; congr 1; omega
    have e2 : (2 : Nat) ^ (2 * (a + b)) = 2 ^ b * 2 ^ (a + b) * 2 ^ a := by
      rw [← pow_add, ← pow_add]; congr 1; omega
    rw [e1, e2] at hx
    exact form_low a b (2 ^ (a + b)) 4 (2 ^ (a + b)) y y' (by norm_num) (two_pow_pos_nat _)
      (pow_dvd_pow 2 (by omega)) (pow_dvd_pow 2 (by omega)) hq hx

/-! ## The first coordinate in closed form -/

theorem add32_mod {m : Nat} (hm : m ≤ 32) (a b : Nat) :
    add32 a b % 2 ^ m = (a + b) % 2 ^ m :=
  Nat.mod_mod_of_dvd _ (pow_dvd_pow 2 hm)

theorem add32_add_mod {m : Nat} (hm : m ≤ 32) (a b c : Nat) :
    (add32 a b + c) % 2 ^ m = (a + b + c) % 2 ^ m := by
  rw [Nat.add_mod, add32_mod hm, ← Nat.add_mod]

theorem add32_add_add_mod {m : Nat} (hm : m ≤ 32) (a b c d : Nat) :
    (add32 a b + c + d) % 2 ^ m = (a + b + c + d) % 2 ^ m := by
  rw [Nat.add_assoc, add32_add_mod hm, ← Nat.add_assoc]

theorem add_word_mod {m : Nat} (hm : m ≤ 32) (a b : Nat) :
    (a + b % 2 ^ 32) % 2 ^ m = (a + b) % 2 ^ m := by
  rw [Nat.add_mod, Nat.mod_mod_of_dvd _ (pow_dvd_pow 2 hm), ← Nat.add_mod]

namespace GenDiag0m2

theorem new_d_odd (t : Target) {m : Nat} (hm : m ≤ 31) (ho : m % 2 = 1) :
    (new t m).d =
      (List.range (2 ^ (m / 2))).map fun k => add32 (shr t (vdc k) (sub32 32 m)) k := by
  have h : m &&& 1 ≠ 0 := by rw [Nat.and_one_is_mod]; omega
  have hs : shl t 1 (m >>> 1) = 2 ^ (m / 2) := by
    rw [Nat.shiftRight_eq_div_pow, Nat.pow_one, shl_one t (by omega)]
  unfold new
  dsimp only
  rw [if_pos h, hs]

theorem new_d_even (t : Target) {m : Nat} (hm : m ≤ 31) (he : m % 2 = 0) :
    (new t m).d =
      (List.range (2 ^ (m / 2))).map fun k =>
        add32 (add32 (shr t (vdc k) (sub32 32 m)) (k >>> 2)) (shl t 1 (sub32 (m >>> 1) 2)) := by
  have h : ¬ (m &&& 1 ≠ 0) := by rw [Nat.and_one_is_mod]; omega
  have hs : shl t 1 (m >>> 1) = 2 ^ (m / 2) := by
    rw [Nat.shiftRight_eq_div_pow, Nat.pow_one, shl_one t (by omega)]
  unfold new
  dsimp only
  rw [if_neg h, hs]

theorem readD_map (t : Target) (g : GenDiag0m2) (f : Nat → Nat) {N k : Nat}
    (hd : g.d = (List.range N).map f) (hk : k < N) : readD t g k = f k := by
  unfold readD
  rw [hd, List.getD_eq_getElem _ _ (by simpa using hk)]
  simp

theorem lt_word_of_lt_half {m k : Nat} (hm : m ≤ 31) (hk : k < 2 ^ (m / 2)) : k < 2 ^ 32 :=
  Nat.lt_trans hk (Nat.pow_lt_pow_right (by norm_num) (by omega))

theorem readD_odd (t : Target) {m k : Nat} (hm : m ≤ 31) (ho : m % 2 = 1)
    (hk : k < 2 ^ (m / 2)) :
    readD t (new t m) k = add32 (brev (m / 2) k * 2 ^ (m / 2 + 1)) k := by
  have hb : brev m k = brev (m / 2) k * 2 ^ (m / 2 + 1) := by
    have h := brev_of_lt (m / 2 + 1) hk
    rw [show m / 2 + (m / 2 + 1) = m by omega] at h
    exact h
  rw [readD_map t _ _ (new_d_odd t hm ho) hk,
    vdc_shr_eq_brev t (by omega) hm (lt_word_of_lt_half hm hk), hb]

theorem readD_even (t : Target) {m k : Nat} (hm : m ≤ 31) (he : m % 2 = 0) (h4 : 4 ≤ m)
    (hk : k < 2 ^ (m / 2)) :
    readD t (new t m) k =
      add32 (add32 (brev (m / 2) k * 2 ^ (m / 2)) (k / 4)) (2 ^ (m / 2 - 2)) := by
  have hb : brev m k = brev (m / 2) k * 2 ^ (m / 2) := by
    have h := brev_of_lt (m / 2) hk
    rw [show m / 2 + m / 2 = m by omega] at h
    exact h
  have hdx : sub32 (m >>> 1) 2 = m / 2 - 2 := by
    rw [Nat.shiftRight_eq_div_pow, Nat.pow_one]
    unfold sub32
    omega
  have hk4 : k >>> 2 = k / 4 := Nat.shiftRight_eq_div_pow k 2
  rw [readD_map t _ _ (new_d_even t hm he) hk,
    vdc_shr_eq_brev t (by omega) hm (lt_word_of_lt_half hm hk), hb, hdx, hk4,
    shl_one t (by omega)]

end GenDiag0m2

namespace GenDiag0m2

theorem get_fst_odd (t : Target) {m i : Nat} (hm : m ≤ 31) (ho : m % 2 = 1)
    (hi : i < 2 ^ m) :
    (get t (new t m) i).1 =
      xForm (m / 2) (2 ^ (m / 2 + 1)) 1 0 (2 ^ m) (get t (new t m) i).2 := by
  have hc : (m + 1) / 2 = m / 2 + 1 := by omega
  have hi2 : i < 2 ^ (m / 2 + 1) * 2 ^ (m / 2) := by
    rw [← hc, ← half_split m]; exact hi
  have hk : i / 2 ^ (m / 2 + 1) < 2 ^ (m / 2) := Nat.div_lt_of_lt_mul hi2
  have hy : (i / 2 ^ (m / 2 + 1) + i % 2 ^ (m / 2 + 1) * 2 ^ (m / 2)) % 2 ^ (m / 2) =
      i / 2 ^ (m / 2 + 1) := by
    rw [Nat.add_mul_mod_self_right, Nat.mod_eq_of_lt hk]
  have hsh : m >>> 1 = m / 2 := by rw [Nat.shiftRight_eq_div_pow, Nat.pow_one]
  have hx : (get t (new t m) i).1 =
      add32 (readD t (new t m) (shr t i (new t m).m2))
        (shl t (i &&& (new t m).mask) (new t m).dx) &&& sub32 (new t m).n 1 := rfl
  rw [hx, get_snd t hm hi, get_diag t hm, get_pos t hm, new_n t hm, sub32_two_pow_one hm,
    Nat.and_pow_two_sub_one_eq_mod, new_dx_odd t ho, hsh, hc, readD_odd t hm ho hk,
    shl_of_lt t _ (by omega), add32_mod (by omega), add_word_mod (by omega),
    add32_add_mod (by omega)]
  unfold xForm
  rw [hy, Nat.div_one]
  congr 1
  ring

theorem get_fst_even (t : Target) {m i : Nat} (hm : m ≤ 31) (he : m % 2 = 0) (h4 : 4 ≤ m)
    (hi : i < 2 ^ m) :
    (get t (new t m) i).1 =
      xForm (m / 2) (2 ^ (m / 2)) 4 (2 ^ (m / 2)) (2 ^ m) (get t (new t m) i).2 := by
  have hc : (m + 1) / 2 = m / 2 := by omega
  have hi2 : i < 2 ^ (m / 2) * 2 ^ (m / 2) := by
    have h := half_split m
    rw [hc] at h
    rw [← h]; exact hi
  have hk : i / 2 ^ (m / 2) < 2 ^ (m / 2) := Nat.div_lt_of_lt_mul hi2
  have hy : (i / 2 ^ (m / 2) + i % 2 ^ (m / 2) * 2 ^ (m / 2)) % 2 ^ (m / 2) =
      i / 2 ^ (m / 2) := by
    rw [Nat.add_mul_mod_self_right, Nat.mod_eq_of_lt hk]
  have hT : (2 : Nat) ^ (m / 2) = 2 ^ (m / 2 - 2) * 4 := by
    rw [show (4 : Nat) = 2 ^ 2 by norm_num, ← pow_add]
    congr 1
    omega
  have hdx : (new t m).dx = m / 2 - 2 := by
    rw [new_dx_even t he, Nat.shiftRight_eq_div_pow, Nat.pow_one]
    unfold sub32
    omega
  have hx : (get t (new t m) i).1 =
      add32 (readD t (new t m) (shr t i (new t m).m2))
        (shl t (i &&& (new t m).mask) (new t m).dx) &&& sub32 (new t m).n 1 := rfl
  rw [hx, get_snd t hm hi, get_diag t hm, get_pos t hm, new_n t hm, sub32_two_pow_one hm,
    Nat.and_pow_two_sub_one_eq_mod, hdx, hc, readD_even t hm he h4 hk,
    shl_of_lt t _ (by omega), add32_mod (by omega), add_word_mod (by omega),
    add32_add_mod (by omega), add32_add_add_mod (by omega)]
  unfold xForm
  rw [hy]
  congr 1
  have e : brev (m / 2) (i / 2 ^ (m / 2)) * 2 ^ (m / 2) * 4 + 2 ^ (m / 2) +
      (i / 2 ^ (m / 2) + i % 2 ^ (m / 2) * 2 ^ (m / 2)) =
      i / 2 ^ (m / 2) + (brev (m / 2) (i / 2 ^ (m / 2)) * 2 ^ (m / 2) + 2 ^ (m / 2 - 2) +
        i % 2 ^ (m / 2) * 2 ^ (m / 2 - 2)) * 4 := by
    generalize 2 ^ (m / 2 - 2) = T at hT ⊢
    generalize 2 ^ (m / 2) = H at hT ⊢
    subst hT
    ring
  rw [e, Nat.add_mul_div_right _ _ (by norm_num)]
  ring

end GenDiag0m2

/-! ## Counting points in cells -/

theorem cells_surj {n A B : Nat} (hn : n = A * B) (c : Nat → Nat × Nat)
    (hr : ∀ i, i < n → (c i).1 < A ∧ (c i).2 < B)
    (hinj : ∀ i j, i < n → j < n → c i = c j → i = j) :
    ∀ u v, u < A → v < B → ∃ i, i < n ∧ c i = (u, v) := by
  intro u v hu hv
  let f : Fin n → Fin A × Fin B :=
    fun i => (⟨(c i).1, (hr i i.2).1⟩, ⟨(c i).2, (hr i i.2).2⟩)
  have finj : Function.Injective f := by
    intro i j h
    have h1 : (c i).1 = (c j).1 := congrArg (fun p : Fin A × Fin B => p.1.val) h
    have h2 : (c i).2 = (c j).2 := congrArg (fun p : Fin A × Fin B => p.2.val) h
    exact Fin.ext (hinj i j i.2 j.2 (Prod.ext h1 h2))
  have hcard : Fintype.card (Fin n) = Fintype.card (Fin A × Fin B) := by
    simp [hn]
  obtain ⟨i, hi⟩ := ((Fintype.bijective_iff_injective_and_card f).2 ⟨finj, hcard⟩).2
    (⟨u, hu⟩, ⟨v, hv⟩)
  refine ⟨i.val, i.2, Prod.ext ?_ ?_⟩
  · exact congrArg (fun p : Fin A × Fin B => p.1.val) hi
  · exact congrArg (fun p : Fin A × Fin B => p.2.val) hi

theorem count_one {α : Type} (n : Nat) (g : Nat → α) (Q : α → Bool) (i0 : Nat)
    (h0 : i0 < n) (hQ : Q (g i0) = true)
    (huniq : ∀ i, i < n → Q (g i) = true → i = i0) :
    (((List.range n).map g).filter Q).length = 1 := by
  rw [List.filter_map, List.length_map]
  have hnd : ((List.range n).filter (Q ∘ g)).Nodup := (List.nodup_range n).filter _
  have hmem : ∀ x, x ∈ (List.range n).filter (Q ∘ g) ↔ x = i0 := by
    intro x
    rw [List.mem_filter, List.mem_range]
    constructor
    · rintro ⟨hx, hq⟩
      exact huniq x hx hq
    · rintro rfl
      exact ⟨h0, hQ⟩
  have hfs : ((List.range n).filter (Q ∘ g)).toFinset = {i0} := by
    ext x
    rw [List.mem_toFinset, hmem, Finset.mem_singleton]
  rw [← List.toFinset_card_of_nodup hnd, hfs, Finset.card_singleton]

theorem div_eq_iff_bounds {x k p : Nat} (hk : 0 < k) :
    x / k = p ↔ p * k ≤ x ∧ x < (p + 1) * k := by
  rw [← Nat.le_div_iff_mul_le hk, ← Nat.div_lt_iff_lt_mul hk]
  omega

namespace GenDiag0m2

theorem inRect_iff (m a p q : Nat) (pt : Nat × Nat) :
    inRect m a p q pt = true ↔ pt.1 / 2 ^ (m - a) = p ∧ pt.2 / 2 ^ a = q := by
  unfold inRect
  rw [decide_eq_true_iff, div_eq_iff_bounds (two_pow_pos_nat _),
    div_eq_iff_bounds (two_pow_pos_nat _)]
  tauto

/-- Two indices whose points fall into the same cell of shape `a` are equal, for odd `m`
and for even `m ≥ 4`. -/
theorem cells_inj (t : Target) {m a i j : Nat} (hm1 : 1 ≤ m) (hm : m ≤ 31) (hm2 : m ≠ 2)
    (ha : a ≤ m) (hi : i < 2 ^ m) (hj : j < 2 ^ m)
    (hx : (get t (new t m) i).1 / 2 ^ (m - a) = (get t (new t m) j).1 / 2 ^ (m - a))
    (hy : (get t (new t m) i).2 / 2 ^ a = (get t (new t m) j).2 / 2 ^ a) : i = j := by
  apply get_snd_inj t hm hi hj
  rcases Nat.mod_two_eq_zero_or_one m with he | ho
  · have h4 : 4 ≤ m := by omega
    have hmm : 2 * (m / 2) = m := by omega
    have key := even_cells_inj (m / 2) a (get t (new t m) i).2 (get t (new t m) j).2
    rw [hmm] at key
    rw [get_fst_even t hm he h4 hi, get_fst_even t hm he h4 hj] at hx
    exact key (by omega) ha hy hx
  · have hmm : 2 * (m / 2) + 1 = m := by omega
    have key := odd_cells_inj (m / 2) a (get t (new t m) i).2 (get t (new t m) j).2
    rw [hmm] at key
    rw [get_fst_odd t hm ho hi, get_fst_odd t hm ho hj] at hx
    exact key ha hy hx

/-- C13: for every `m` from 1 to 31 other than 2, the points `get(0), ..., get(n-1)` form
a (0,m,2)-net: every elementary rectangle holds exactly one point, and for every
`a ≤ m` the map `i -> (x_i >> (m-a), y_i >> a)` sends `[0, n)` into
`[0, 2^a) x [0, 2^(m-a))`, is one-to-one, and reaches every pair of that set. -/
theorem net_for_valid_m (t : Target) (m : Nat) (hm1 : 1 ≤ m) (hm : m ≤ 31) (hm2 : m ≠ 2) :
    IsNet t (new t m) ∧
    ∀ a, a ≤ m →
      (∀ i, i < (new t m).n →
        (get t (new t m) i).1 >>> (m - a) < 2 ^ a ∧
        (get t (new t m) i).2 >>> a < 2 ^ (m - a)) ∧
      (∀ i j, i < (new t m).n → j < (new t m).n →
        (get t (new t m) i).1 >>> (m - a) = (get t (new t m) j).1 >>> (m - a) →
        (get t (new t m) i).2 >>> a = (get t (new t m) j).2 >>> a → i = j) ∧
      ∀ u v, u < 2 ^ a → v < 2 ^ (m - a) →
        ∃ i, i < (new t m).n ∧
          (get t (new t m) i).1 >>> (m - a) = u ∧ (get t (new t m) i).2 >>> a = v := by
  have hn := new_n t hm
  have hsplit : ∀ a, a ≤ m → 2 ^ m = 2 ^ a * 2 ^ (m - a) := by
    intro a ha
    rw [← pow_add]
    congr 1
    omega
  have hrange : ∀ a, a ≤ m → ∀ i, i < 2 ^ m →
      (get t (new t m) i).1 / 2 ^ (m - a) < 2 ^ a ∧
      (get t (new t m) i).2 / 2 ^ a < 2 ^ (m - a) := by
    intro a ha i hi
    constructor
    · rw [Nat.div_lt_iff_lt_mul (two_pow_pos_nat _), ← hsplit a ha]
      exact get_fst_lt t hm i
    · rw [Nat.div_lt_iff_lt_mul (two_pow_pos_nat _), Nat.mul_comm, ← hsplit a ha]
      exact get_snd_lt t hm hi
  have hsurj : ∀ a, a ≤ m → ∀ u v, u < 2 ^ a → v < 2 ^ (m - a) →
      ∃ i, i < 2 ^ m ∧
        ((get t (new t m) i).1 / 2 ^ (m - a), (get t (new t m) i).2 / 2 ^ a) = (u, v) := by
    intro a ha
    refine cells_surj (hsplit a ha)
      (fun i => ((get t (new t m) i).1 / 2 ^ (m - a), (get t (new t m) i).2 / 2 ^ a))
      (hrange a ha) ?_
    intro i j hi hj h
    exact cells_inj t hm1 hm hm2 ha hi hj (congrArg Prod.fst h) (congrArg Prod.snd h)
  constructor
  · intro a ha p hp q hq
    rw [new_m] at ha hq
    obtain ⟨i0, hi0, hc⟩ := hsurj a ha p q hp hq
    unfold countIn points
    rw [new_m, hn]
    refine count_one (2 ^ m) (get t (new t m)) (inRect m a p q) i0 hi0 ?_ ?_
    · rw [inRect_iff]
      exact ⟨congrArg Prod.fst hc, congrArg Prod.snd hc⟩
    · intro i hi hQ
      rw [inRect_iff] at hQ
      exact cells_inj t hm1 hm hm2 ha hi hi0
        (hQ.1.trans (congrArg Prod.fst hc).symm) (hQ.2.trans (congrArg Prod.snd hc).symm)
  · intro a ha
    rw [hn]
    simp only [Nat.shiftRight_eq_div_pow]
    refine ⟨hrange a ha, fun i j hi hj hx hy => cells_inj t hm1 hm hm2 ha hi hj hx hy, ?_⟩
    intro u v hu hv
    obtain ⟨i, hi, hc⟩ := hsurj a ha u v hu hv
    exact ⟨i, hi, congrArg Prod.fst hc, congrArg Prod.snd hc⟩

theorem net_for_valid_m_witness :
    1 ≤ 4 ∧ 4 ≤ 31 ∧ 4 ≠ 2 ∧ IsNet maskCount (new maskCount 4) :=
  ⟨by decide, by decide, by decide,
    (net_for_valid_m maskCount 4 (by decide) (by decide) (by decide)).1⟩

end GenDiag0m2
